import Mathlib

/-!
Verification of the two-pass record-reconciliation core of ADMINify
(source: `src/caura/scripts/A - Checker.ts`).

Strings are modelled as `List Char`.  JavaScript numbers appearing in the
similarity pipeline are modelled exactly: row values of the dynamic program
are naturals, the distance budget is an integer, and similarity scores are
rationals (all the concrete comparisons performed by the script are far from
any double-rounding boundary, and the two boundary values the script uses,
`0.85` and `0.6`, compare with the computed quotients exactly as the
rationals do).
-/

/-- Character class of JavaScript whitespace (the characters `trim` and
`\s` treat as whitespace that can occur in the data model). -/
def isJsWhitespace (c : Char) : Bool :=
  c = ' ' || c = '\t' || c = '\n' || c = '\r' ||
  c.toNat = 11 || c.toNat = 12 || c.toNat = 160 || c.toNat = 65279

/-- Model of JavaScript `String.prototype.trim`: drop whitespace from both
ends. -/
def jsTrim (s : List Char) : List Char :=
  ((s.dropWhile isJsWhitespace).reverse.dropWhile isJsWhitespace).reverse

/-- Model of `cleaned.replace(/ - /g, " ")`: scan left to right, each
non-overlapping occurrence of space-hyphen-space is replaced by one space. -/
def replaceSpHySp : List Char → List Char
  | c1 :: c2 :: c3 :: rest =>
      if c1 = ' ' ∧ c2 = '-' ∧ c3 = ' ' then ' ' :: replaceSpHySp rest
      else c1 :: replaceSpHySp (c2 :: c3 :: rest)
  | c :: rest => c :: replaceSpHySp rest
  | [] => []

/-- Model of the source's second replacement (regex hyphen-space, global):
each non-overlapping occurrence of hyphen-space is removed. -/
def replaceHySp : List Char → List Char
  | c1 :: c2 :: rest =>
      if c1 = '-' ∧ c2 = ' ' then replaceHySp rest
      else c1 :: replaceHySp (c2 :: rest)
  | c :: rest => c :: replaceHySp rest
  | [] => []

/-- Model of the source's third replacement (regex space-hyphen-dollar,
global): a trailing space-hyphen is removed (the anchor admits at most one
match, at the very end). -/
def replaceSpHyEnd (s : List Char) : List Char :=
  if s.reverse.take 2 = ['-', ' '] then (s.reverse.drop 2).reverse else s

/-- `cleanName` from the source: truncate at the first `(`, trim, remove the
three hyphen separator patterns, trim again. -/
def cleanName (name : List Char) : List Char :=
  jsTrim (replaceSpHyEnd (replaceHySp (replaceSpHySp
    (jsTrim (name.takeWhile (fun c => c ≠ '('))))))

/-- The character class `[a-z]` of the regex `/[^a-z]/g` (code points 97
through 122). -/
def isLowerAlpha (c : Char) : Bool :=
  97 ≤ c.toNat && c.toNat ≤ 122

/-- `normalizeName` from the source: concatenate first and last name,
lowercase, strip whitespace, strip everything outside `[a-z]`. -/
def normalizeName (firstName lastName : List Char) : List Char :=
  (((firstName ++ lastName).map Char.toLower).filter
    (fun c => !isJsWhitespace c)).filter isLowerAlpha

/-- `normalizeActivityName` from the source: truncate at the first `(`,
trim, lowercase, strip whitespace, strip everything outside `[a-z]`. -/
def normalizeActivityName (name : List Char) : List Char :=
  ((((jsTrim (name.takeWhile (fun c => c ≠ '('))).map Char.toLower).filter
    (fun c => !isJsWhitespace c)).filter isLowerAlpha)

example : cleanName (("John Smith (note)").toList) = ("John Smith").toList := by decide
example : normalizeActivityName (cleanName (("John Smith (note)").toList)) =
    ("johnsmith").toList := by decide
example : normalizeName (cleanName (("john smith").toList)) [] = ("johnsmith").toList := by
  decide

/-- First-occurrence-preserving set of the characters of a string, the model
of `new Set(str.split(""))` converted back to an array. -/
def charSet (s : List Char) : List Char :=
  s.foldl (fun acc c => if c ∈ acc then acc else acc ++ [c]) []

/-- `jaccardSimilarity` from the source: ratio of shared to total distinct
characters. -/
def jaccardSimilarity (str1 str2 : List Char) : ℚ :=
  let arr1 := charSet str1
  let arr2 := charSet str2
  let inter := arr1.filter (fun c => decide (c ∈ arr2))
  let union := arr1 ++ arr2.filter (fun c => decide (c ∉ arr1))
  (inter.length : ℚ) / (union.length : ℚ)

/-- Inner loop of `levenshteinDistanceWithLimit`: given the character `c` of
`str1` for this row, the remaining characters of `str2`, the previous row
entry diagonally left, the current row entry to the left, and the remaining
previous-row entries, produce the remaining current-row entries. -/
def levNextRowAux (c : Char) : List Char → Nat → Nat → List Nat → List Nat
  | [], _, _, _ => []
  | _ :: _, _, _, [] => []
  | y :: ys, pd, cp, p :: ps =>
      let cost := if c = y then 0 else 1
      let cj := min (p + 1) (min (cp + 1) (pd + cost))
      cj :: levNextRowAux c ys p cj ps

/-- One row of the rolling dynamic program: `curr[0] = i`, then the inner
loop over `str2`. -/
def levNextRow (c : Char) (s2 : List Char) (i : Nat) (prev : List Nat) : List Nat :=
  i :: levNextRowAux c s2 (prev.headD 0) i prev.tail

/-- Outer loop of `levenshteinDistanceWithLimit` over the characters of
`str1`, with the early-termination check on the row minimum. -/
def levLoop (s2 : List Char) (maxDistance : ℤ) : List Char → Nat → List Nat → ℤ
  | [], _, prev => (prev.getLastD 0 : ℤ)
  | c :: cs, i, prev =>
      let curr := levNextRow c s2 i prev
      if ((curr.foldl min i : ℕ) : ℤ) > maxDistance then maxDistance + 1
      else levLoop s2 maxDistance cs (i + 1) curr

/-- `levenshteinDistanceWithLimit` from the source: rolling two-row
Levenshtein computation, starting from the row `0, 1, ..., str2.length`,
aborting with `maxDistance + 1` as soon as a row minimum exceeds the
budget. -/
def levenshteinDistanceWithLimit (str1 str2 : List Char) (maxDistance : ℤ) : ℤ :=
  levLoop str2 maxDistance str1 1 (List.range (str2.length + 1))

/-- The test `str1[0] !== str2[0]` of the source: indexing an empty string
yields `undefined`, which differs from every character. -/
def firstCharNe (s1 s2 : List Char) : Bool :=
  match s1, s2 with
  | c1 :: _, c2 :: _ => c1 ≠ c2
  | [], [] => false
  | _, _ => true

/-- `calculateOptimizedSimilarity` from the source: the cascade of the
length filter, the first-character filter, the Jaccard pre-filter, and the
bounded Levenshtein computation. -/
def calculateOptimizedSimilarity (str1 str2 : List Char) (threshold : ℚ) : ℚ :=
  let lengthDiff : ℕ := ((str1.length : ℤ) - (str2.length : ℤ)).natAbs
  let maxLength : ℕ := max str1.length str2.length
  if maxLength = 0 then 1
  else if (lengthDiff : ℚ) > (maxLength : ℚ) * (1 - threshold) then 0
  else if firstCharNe str1 str2 then 0
  else if jaccardSimilarity str1 str2 < 6/10 then 0
  else
    let maxDistance : ℤ := ⌊(maxLength : ℚ) * (1 - threshold)⌋
    let distance : ℤ := levenshteinDistanceWithLimit str1 str2 maxDistance
    if distance > maxDistance then 0
    else ((maxLength : ℚ) - (distance : ℚ)) / (maxLength : ℚ)

example : levenshteinDistanceWithLimit (("janedow").toList) (("janedoe").toList) 1 = 1 := by
  decide
example : levenshteinDistanceWithLimit (("ab").toList) [] 0 = 1 := by decide
example : levenshteinDistanceWithLimit [] (("ab").toList) 0 = 2 := by decide

/-- Kernel-computable form of `jaccardSimilarity` (the quotient of the two
list lengths written with `mkRat`), used to evaluate concrete inputs. -/
def jacc85 (str1 str2 : List Char) : ℚ :=
  let arr1 := charSet str1
  let arr2 := charSet str2
  let inter := arr1.filter (fun c => decide (c ∈ arr2))
  let union := arr1 ++ arr2.filter (fun c => decide (c ∉ arr1))
  mkRat inter.length union.length

theorem jaccardSimilarity_eq_jacc85 (str1 str2 : List Char) :
    jaccardSimilarity str1 str2 = jacc85 str1 str2 := by
  unfold jaccardSimilarity jacc85
  rw [Rat.mkRat_eq_div]
  push_cast
  rfl

/-- Kernel-computable form of `calculateOptimizedSimilarity` at the
threshold `0.85` actually used by the matching pass: the comparisons with
`maxLength * (1 - 0.85)` become integer comparisons and the quotients are
written with `mkRat`. -/
def calcSim85 (str1 str2 : List Char) : ℚ :=
  let lengthDiff : ℕ := ((str1.length : ℤ) - (str2.length : ℤ)).natAbs
  let maxLength : ℕ := max str1.length str2.length
  if maxLength = 0 then 1
  else if 3 * maxLength < 20 * lengthDiff then 0
  else if firstCharNe str1 str2 then 0
  else if jacc85 str1 str2 < mkRat 6 10 then 0
  else
    let maxDistance : ℤ := ((3 * maxLength) / 20 : ℕ)
    let distance : ℤ := levenshteinDistanceWithLimit str1 str2 maxDistance
    if distance > maxDistance then 0
    else mkRat ((maxLength : ℤ) - distance) maxLength

theorem lengthFilter_at85 (m d : ℕ) :
    ((d : ℚ) > (m : ℚ) * (1 - 17/20)) ↔ 3 * m < 20 * d := by
  rw [gt_iff_lt, show (1 : ℚ) - 17/20 = 3/20 by norm_num,
    show (m : ℚ) * (3/20) = (3 * m)/20 by ring,
    div_lt_iff₀ (by norm_num : (0:ℚ) < 20),
    show ((d : ℚ) * 20) = ((20 * d : ℕ) : ℚ) by push_cast; ring,
    show ((3 : ℚ) * m) = ((3 * m : ℕ) : ℚ) by push_cast; ring,
    Nat.cast_lt]

theorem maxDistance_at85 (m : ℕ) :
    ⌊(m : ℚ) * (1 - 17/20)⌋ = (((3 * m) / 20 : ℕ) : ℤ) := by
  rw [show (1 : ℚ) - 17/20 = 3/20 by norm_num,
    show (m : ℚ) * (3/20) = ((3 * m : ℕ) : ℚ) / ((20 : ℕ) : ℚ) by push_cast; ring,
    Rat.floor_natCast_div_natCast]
  push_cast
  rfl

theorem calculateOptimizedSimilarity_at85 (str1 str2 : List Char) :
    calculateOptimizedSimilarity str1 str2 (17/20) = calcSim85 str1 str2 := by
  unfold calculateOptimizedSimilarity calcSim85
  by_cases h1 : max str1.length str2.length = 0
  · simp [h1]
  · simp only [h1, if_false]
    rw [if_congr (lengthFilter_at85 _ _) rfl rfl]
    by_cases h2 : 3 * max str1.length str2.length <
        20 * ((str1.length : ℤ) - (str2.length : ℤ)).natAbs
    · simp [h2]
    · simp only [h2, if_false]
      by_cases h3 : firstCharNe str1 str2
      · simp [h3]
      · simp only [h3, if_false]
        rw [jaccardSimilarity_eq_jacc85,
          show (6 : ℚ)/10 = mkRat 6 10 by rw [Rat.mkRat_eq_div]; norm_num]
        by_cases h4 : jacc85 str1 str2 < mkRat 6 10
        · simp [h4]
        · simp only [h4, if_false, maxDistance_at85]
          refine if_congr Iff.rfl rfl ?_
          rw [Rat.mkRat_eq_div]
          push_cast
          rfl

example : calcSim85 (("janedow").toList) (("janedoe").toList) = 6/7 := by
  rw [show (6:ℚ)/7 = mkRat 6 7 by rw [Rat.mkRat_eq_div]; norm_num]
  decide
example : calcSim85 (("abcdefghijklmnopqrst").toList)
    (("abcdefghijklmnopqaaa").toList) = mkRat 17 20 := by decide

/-- The unit cost structure: delete and insert cost `1`, substitution costs
`1` unless the characters agree. -/
def dC : Levenshtein.Cost Char Char ℕ := Levenshtein.defaultCost

/-- The true Levenshtein distance between two strings (Mathlib's
`levenshtein` with unit costs), the specification that
`levenshteinDistanceWithLimit` is measured against. -/
def lev (xs ys : List Char) : ℕ := levenshtein dC xs ys

theorem lev_nil_left (ys : List Char) : lev [] ys = ys.length := by
  induction ys with
  | nil => simp [lev, dC]
  | cons y ys ih => simp [lev, dC] at ih ⊢; omega

theorem lev_nil_right (xs : List Char) : lev xs [] = xs.length := by
  induction xs with
  | nil => simp [lev, dC]
  | cons x xs ih => simp [lev, dC] at ih ⊢; omega

theorem lev_cons_cons (x y : Char) (xs ys : List Char) :
    lev (x :: xs) (y :: ys) =
      min (lev xs (y :: ys) + 1)
        (min (lev (x :: xs) ys + 1) (lev xs ys + (if x = y then 0 else 1))) := by
  by_cases h : x = y <;>
    simp [lev, dC, levenshtein_cons_cons, h] <;> omega

/-- Entries `j = pre.length + 1, ..., pre.length + ys.length` of the
dynamic-programming row: the Levenshtein distances from each reversed
prefix of the second input string to `a`. -/
def specRowFrom (a : List Char) : List Char → List Char → List Nat
  | _, [] => []
  | pre, y :: ys => lev ((pre ++ [y]).reverse) a :: specRowFrom a (pre ++ [y]) ys

/-- The full dynamic-programming row associated with the already-consumed
reversed prefix `a` of the first input string. -/
def specRow (a s2 : List Char) : List Nat :=
  lev [] a :: specRowFrom a [] s2

theorem specRowFrom_nil (ys : List Char) : ∀ pre : List Char,
    specRowFrom [] pre ys = List.range' (pre.length + 1) ys.length := by
  induction ys with
  | nil => intro pre; rfl
  | cons y ys ih =>
      intro pre
      simp [specRowFrom, lev_nil_right, ih, List.range'_succ]

theorem specRow_nil (s2 : List Char) : specRow [] s2 = List.range (s2.length + 1) := by
  simp only [specRow, specRowFrom_nil, lev_nil_right, List.length_nil]
  rw [List.range_eq_range', List.range'_succ]

theorem foldl_min_le_init (l : List ℕ) : ∀ i : ℕ, l.foldl min i ≤ i := by
  induction l with
  | nil => intro i; simp
  | cons x l ih =>
      intro i
      calc l.foldl min (min i x) ≤ min i x := ih (min i x)
      _ ≤ i := min_le_left i x

theorem foldl_min_le_mem (l : List ℕ) : ∀ i x : ℕ, x ∈ l → l.foldl min i ≤ x := by
  induction l with
  | nil => intro i x h; cases h
  | cons y l ih =>
      intro i x h
      rcases List.mem_cons.mp h with h | h
      · subst h
        calc l.foldl min (min i x) ≤ min i x := foldl_min_le_init l (min i x)
        _ ≤ x := min_le_right i x
      · exact ih (min i y) x h

theorem levNextRowAux_spec (c : Char) (a : List Char) : ∀ ys pre : List Char,
    levNextRowAux c ys (lev pre.reverse a) (lev pre.reverse (c :: a))
      (specRowFrom a pre ys) = specRowFrom (c :: a) pre ys := by
  intro ys
  induction ys with
  | nil => intro pre; rfl
  | cons y ys ih =>
      intro pre
      have hrev : (pre ++ [y]).reverse = y :: pre.reverse := by simp
      have key : min (lev ((pre ++ [y]).reverse) a + 1)
          (min (lev pre.reverse (c :: a) + 1)
            (lev pre.reverse a + (if c = y then 0 else 1))) =
          lev ((pre ++ [y]).reverse) (c :: a) := by
        rw [hrev, lev_cons_cons]
        by_cases h : c = y
        · simp [h]; omega
        · simp [h, show ¬ (y = c) from fun hyc => h hyc.symm]; omega
      simp only [specRowFrom, levNextRowAux]
      rw [key]
      exact congrArg _ (ih (pre ++ [y]))

theorem levNextRow_spec (c : Char) (a s2 : List Char) :
    levNextRow c s2 (a.length + 1) (specRow a s2) = specRow (c :: a) s2 := by
  have hlen : a.length + 1 = lev [] (c :: a) := by
    rw [lev_nil_left]; simp
  unfold levNextRow specRow
  simp only [List.headD_cons, List.tail_cons]
  rw [hlen]
  congr 1
  have := levNextRowAux_spec c a s2 []
  simpa using this

theorem specRowFrom_getLastD (a : List Char) : ∀ ys pre : List Char, ∀ d : ℕ, ys ≠ [] →
    (specRowFrom a pre ys).getLastD d = lev ((pre ++ ys).reverse) a := by
  intro ys
  induction ys with
  | nil => intro pre d h; exact absurd rfl h
  | cons y ys ih =>
      intro pre d _
      rw [show specRowFrom a pre (y :: ys) =
          lev ((pre ++ [y]).reverse) a :: specRowFrom a (pre ++ [y]) ys from rfl,
        List.getLastD_cons]
      rcases ys with _ | ⟨z, zs⟩
      · rfl
      · rw [ih (pre ++ [y]) _ (by simp)]
        congr 2
        simp

theorem specRow_getLastD (a s2 : List Char) :
    (specRow a s2).getLastD 0 = lev s2.reverse a := by
  rcases s2 with _ | ⟨y, ys⟩
  · rfl
  · rw [show specRow a (y :: ys) = lev [] a :: specRowFrom a [] (y :: ys) from rfl,
      List.getLastD_cons]
    rw [specRowFrom_getLastD a (y :: ys) [] _ (by simp), List.nil_append]

theorem mem_specRowFrom (a : List Char) : ∀ ys pre : List Char, ∀ j : ℕ,
    1 ≤ j → j ≤ ys.length →
    lev ((pre ++ ys.take j).reverse) a ∈ specRowFrom a pre ys := by
  intro ys
  induction ys with
  | nil => intro pre j h1 h2; simp at h2; omega
  | cons y ys ih =>
      intro pre j h1 h2
      match j, h1 with
      | 1, _ =>
          simp only [List.take_succ_cons, List.take_zero, specRowFrom]
          exact List.mem_cons_self _ _
      | (k+2), _ =>
          simp only [List.take_succ_cons, specRowFrom]
          apply List.mem_cons_of_mem
          have : pre ++ y :: List.take (k + 1) ys = (pre ++ [y]) ++ List.take (k + 1) ys := by
            simp
          rw [this]
          exact ih (pre ++ [y]) (k + 1) (by omega) (by simpa using h2)

theorem mem_specRow_of_suffix (a s2 xs' : List Char) (h : xs' <:+ s2.reverse) :
    lev xs' a ∈ specRow a s2 := by
  obtain ⟨t, ht⟩ := h
  have hs2 : s2 = xs'.reverse ++ t.reverse := by
    have := congrArg List.reverse ht
    simpa using this.symm
  by_cases hj : xs'.length = 0
  · have hx : xs' = [] := List.length_eq_zero.mp hj
    subst hx
    exact List.mem_cons_self _ _
  · have htake : s2.take xs'.length = xs'.reverse := by
      rw [hs2, show xs'.length = xs'.reverse.length by simp]
      exact List.take_left _ _
    have h2 : xs'.length ≤ s2.length := by
      rw [hs2]; simp
    have hm := mem_specRowFrom a s2 [] xs'.length (by omega) h2
    rw [List.nil_append, htake, List.reverse_reverse] at hm
    exact List.mem_cons_of_mem _ hm

theorem levLoop_spec (s2 : List Char) (d : ℤ) : ∀ rest a : List Char,
    levLoop s2 d rest (a.length + 1) (specRow a s2) =
      (lev s2.reverse (rest.reverse ++ a) : ℤ) ∨
    (levLoop s2 d rest (a.length + 1) (specRow a s2) = d + 1 ∧
      d < (lev s2.reverse (rest.reverse ++ a) : ℤ)) := by
  intro rest
  induction rest with
  | nil =>
      intro a
      left
      simp only [levLoop, specRow_getLastD, List.reverse_nil, List.nil_append]
  | cons c cs ih =>
      intro a
      have hlist : (c :: cs).reverse ++ a = cs.reverse ++ (c :: a) := by simp
      simp only [levLoop, levNextRow_spec, hlist]
      by_cases habort :
          (((specRow (c :: a) s2).foldl min (a.length + 1) : ℕ) : ℤ) > d
      · rw [if_pos habort]
        right
        refine ⟨rfl, ?_⟩
        obtain ⟨xs', hsuf, hle⟩ :=
          le_levenshtein_append (C := dC) s2.reverse cs.reverse (c :: a)
        have hmem := mem_specRow_of_suffix (c :: a) s2 xs' hsuf
        have hfold := foldl_min_le_mem _ (a.length + 1) _ hmem
        have hle' : lev xs' (c :: a) ≤ lev s2.reverse (cs.reverse ++ (c :: a)) := hle
        omega
      · rw [if_neg habort]
        have := ih (c :: a)
        simpa using this

theorem levenshteinDistanceWithLimit_cases (s1 s2 : List Char) (d : ℤ) :
    levenshteinDistanceWithLimit s1 s2 d = (lev s2.reverse s1.reverse : ℤ) ∨
    (levenshteinDistanceWithLimit s1 s2 d = d + 1 ∧
      d < (lev s2.reverse s1.reverse : ℤ)) := by
  have h := levLoop_spec s2 d s1 []
  rw [specRow_nil] at h
  simpa [levenshteinDistanceWithLimit] using h

theorem lev_symm (a : List Char) : ∀ b : List Char, lev a b = lev b a := by
  induction a with
  | nil => intro b; rw [lev_nil_left, lev_nil_right]
  | cons x xs ihx =>
      intro b
      induction b with
      | nil => rw [lev_nil_left, lev_nil_right]
      | cons y ys ihy =>
          rw [lev_cons_cons, lev_cons_cons, ihx (y :: ys), ihx ys, ihy]
          by_cases h : x = y
          · simp [h]; omega
          · rw [if_neg h, if_neg (fun hyx => h hyx.symm)]; omega

theorem lev_snoc_snoc (y x : Char) (B : List Char) : ∀ A : List Char,
    lev (B ++ [y]) (A ++ [x]) =
      min (lev B (A ++ [x]) + 1)
        (min (lev (B ++ [y]) A + 1) (lev B A + (if y = x then 0 else 1))) := by
  induction B with
  | nil =>
      intro A
      induction A with
      | nil => simp only [List.nil_append, lev_cons_cons]
      | cons a A' ihA =>
          have h1 := lev_cons_cons y a [] (A' ++ [x])
          have h4 := ihA
          have h5 := lev_cons_cons y a [] A'
          have h2 : lev [] (a :: (A' ++ [x])) = A'.length + 2 := by
            rw [lev_nil_left]; simp
          have h3 : lev [] (A' ++ [x]) = A'.length + 1 := by
            rw [lev_nil_left]; simp
          have h6 : lev [] (a :: A') = A'.length + 1 := by
            rw [lev_nil_left]; simp
          have h7 : lev [] A' = A'.length := lev_nil_left _
          simp only [List.cons_append, List.nil_append] at h1 h4 h5 ⊢
          simp only [h1, h4, h5, h2, h3, h6, h7]
          generalize lev [y] A' = q1
          generalize (if y = a then (0:ℕ) else 1) = c1
          generalize (if y = x then (0:ℕ) else 1) = c2
          simp only [← min_add_add_right]
          apply le_antisymm <;> simp only [le_min_iff, min_le_iff] <;> omega
  | cons b B' ihB =>
      intro A
      induction A with
      | nil =>
          have h1 := lev_cons_cons b x (B' ++ [y]) []
          have h2 := ihB []
          have h3 := lev_cons_cons b x B' []
          have h4 : lev (B' ++ [y]) [] = B'.length + 1 := by
            rw [lev_nil_right]; simp
          have h6 : lev (b :: B') [] = B'.length + 1 := by
            rw [lev_nil_right]; simp
          have h7 : lev B' [] = B'.length := lev_nil_right _
          have h8 : lev (b :: (B' ++ [y])) [] = B'.length + 2 := by
            rw [lev_nil_right]; simp
          simp only [List.cons_append, List.nil_append] at h1 h2 h3 ⊢
          simp only [h1, h2, h3, h4, h6, h7, h8]
          generalize lev B' [x] = q1
          generalize (if b = x then (0:ℕ) else 1) = c1
          generalize (if y = x then (0:ℕ) else 1) = c2
          simp only [← min_add_add_right]
          apply le_antisymm <;> simp only [le_min_iff, min_le_iff] <;> omega
      | cons a A' ihA =>
          have h1 := lev_cons_cons b a (B' ++ [y]) (A' ++ [x])
          have h2 := ihB (a :: A')
          have h3 := ihA
          have h4 := ihB A'
          have h5 := lev_cons_cons b a B' (A' ++ [x])
          have h6 := lev_cons_cons b a (B' ++ [y]) A'
          have h7 := lev_cons_cons b a B' A'
          simp only [List.cons_append] at h1 h2 h3 h4 h5 h6 h7 ⊢
          simp only [h1, h2, h3, h4, h5, h6, h7]
          generalize lev B' (a :: (A' ++ [x])) = q1
          generalize lev (b :: B') (A' ++ [x]) = q2
          generalize lev B' (A' ++ [x]) = q3
          generalize lev (B' ++ [y]) (a :: A') = q4
          generalize lev B' (a :: A') = q5
          generalize lev (b :: (B' ++ [y])) A' = q6
          generalize lev (B' ++ [y]) A' = q7
          generalize lev (b :: B') A' = q8
          generalize lev B' A' = q9
          generalize (if b = a then (0:ℕ) else 1) = c1
          generalize (if y = x then (0:ℕ) else 1) = c2
          simp only [← min_add_add_right]
          apply le_antisymm <;> simp only [le_min_iff, min_le_iff] <;> omega

theorem lev_reverse (a : List Char) : ∀ b : List Char, lev a.reverse b.reverse = lev a b := by
  induction a with
  | nil =>
      intro b
      rw [List.reverse_nil, lev_nil_left, lev_nil_left, List.length_reverse]
  | cons x xs ihx =>
      intro b
      induction b with
      | nil =>
          rw [List.reverse_nil, lev_nil_right, lev_nil_right, List.length_reverse]
      | cons y ys ihy =>
          rw [show (x :: xs).reverse = xs.reverse ++ [x] by simp,
            show (y :: ys).reverse = ys.reverse ++ [y] by simp,
            lev_snoc_snoc]
          have e1 : lev xs.reverse (ys.reverse ++ [y]) = lev xs (y :: ys) := by
            rw [show ys.reverse ++ [y] = (y :: ys).reverse by simp]
            exact ihx (y :: ys)
          have e2 : lev (xs.reverse ++ [x]) ys.reverse = lev (x :: xs) ys := by
            rw [show xs.reverse ++ [x] = (x :: xs).reverse by simp]
            exact ihy
          have e3 : lev xs.reverse ys.reverse = lev xs ys := ihx ys
          rw [e1, e2, e3, lev_cons_cons]

theorem lev_reverse_symm (s1 s2 : List Char) : lev s2.reverse s1.reverse = lev s1 s2 :=
  calc lev s2.reverse s1.reverse = lev s1.reverse s2.reverse := lev_symm _ _
  _ = lev s1 s2 := lev_reverse s1 s2

/-- Case analysis of the bounded Levenshtein computation against the true
distance: either it returns the true distance, or it aborted early with
`maxDistance + 1` and the true distance exceeds the budget. -/
theorem levenshteinDistanceWithLimit_spec (s1 s2 : List Char) (d : ℤ) :
    levenshteinDistanceWithLimit s1 s2 d = (lev s1 s2 : ℤ) ∨
    (levenshteinDistanceWithLimit s1 s2 d = d + 1 ∧ d < (lev s1 s2 : ℤ)) := by
  have h := levenshteinDistanceWithLimit_cases s1 s2 d
  rwa [lev_reverse_symm] at h

/-- A roster-side record (`RosterEntry` interface of the source).
`rowIndex` is the position of the originating row in the input sequence;
in the source it is the sheet row, which is likewise strictly increasing
across entries. -/
structure RosterEntry where
  normalizedName : List Char
  rowIndex : ℕ
  matched : Bool
deriving DecidableEq

/-- An activity-side record (`ActivityEntry` interface of the source). -/
structure ActivityEntry where
  normalizedName : List Char
  rowIndex : ℕ
  matched : Bool
deriving DecidableEq

/-- JavaScript `Map.set`: overwrite the value when the key is present,
otherwise append the binding. -/
def mapSet (m : List (List Char × ℕ)) (k : List Char) (v : ℕ) : List (List Char × ℕ) :=
  if m.any (fun p => decide (p.1 = k)) then
    m.map (fun p => if p.1 = k then (k, v) else p)
  else m ++ [(k, v)]

/-- JavaScript `Map.get`: the value of the binding, if any. -/
def mapGet (m : List (List Char × ℕ)) (k : List Char) : Option ℕ :=
  (m.find? (fun p => decide (p.1 = k))).map (fun p => p.2)

/-- The two structures `main` builds from the roster sheet: the list
`eligibleRosterNames` and the map `exactMatchMap`. -/
structure RosterState where
  entries : List RosterEntry
  exactMap : List (List Char × ℕ)
deriving DecidableEq

/-- Construction of `eligibleRosterNames` and `exactMatchMap` from the
roster rows (each row already filtered to the Schedule-A-eligible subset by
the caller, as first and last name): clean both names, normalize, and for
nonempty normalized names push an entry and `Map.set` its index. -/
def rosterStep (st : RosterState) (row : ℕ × (List Char × List Char)) : RosterState :=
  let firstName := cleanName row.2.1
  let lastName := cleanName row.2.2
  let normalizedName := normalizeName firstName lastName
  if normalizedName ≠ [] then
    { entries := st.entries ++ [⟨normalizedName, row.1, false⟩],
      exactMap := mapSet st.exactMap normalizedName st.entries.length }
  else st

def buildRoster (rows : List (List Char × List Char)) : RosterState :=
  rows.enum.foldl rosterStep ⟨[], []⟩

/-- Construction of `scheduleANames` from the activity rows: skip rows
blank after trimming, clean, normalize, and keep entries with nonempty
normalized names. -/
def activityStep (acc : List ActivityEntry) (row : ℕ × List Char) : List ActivityEntry :=
  if jsTrim row.2 ≠ [] then
    let cleanedName := cleanName row.2
    let normalizedName := normalizeActivityName cleanedName
    if normalizedName ≠ [] then acc ++ [⟨normalizedName, row.1, false⟩] else acc
  else acc

def buildActivities (rows : List (List Char)) : List ActivityEntry :=
  rows.enum.foldl activityStep []

/-- Set the `matched` flag of the entry at a given position (the effect of
`eligibleRosterNames[i].matched = true`). -/
def markMatchedAt : List RosterEntry → ℕ → List RosterEntry
  | [], _ => []
  | e :: rest, 0 => { e with matched := true } :: rest
  | e :: rest, n + 1 => e :: markMatchedAt rest n

/-- The mutable state of `main` during the matching passes, together with
the bookkeeping list `pairs` recording, in match order, the pair of the
activity `rowIndex` and the roster entry index chosen for it. -/
structure MatchState where
  roster : List RosterEntry
  acts : List ActivityEntry
  exactMatches : ℕ
  fuzzyMatches : ℕ
  pairs : List (ℕ × ℕ)
deriving DecidableEq

/-- One iteration of the exact pass: `exactMatchMap.get` on the normalized
name; on a hit mark both records matched and count the exact match. -/
def exactStep (m : List (List Char × ℕ)) (st : MatchState) (a : ActivityEntry) : MatchState :=
  match mapGet m a.normalizedName with
  | some exactMatchIndex =>
      { st with
        roster := markMatchedAt st.roster exactMatchIndex,
        acts := st.acts ++ [{ a with matched := true }],
        exactMatches := st.exactMatches + 1,
        pairs := st.pairs ++ [(a.rowIndex, exactMatchIndex)] }
  | none => { st with acts := st.acts ++ [a] }

/-- The inner scan of the fuzzy pass: fold over the candidate names with
their positions, keeping the best score seen (strict improvement only, so
the first index attaining the maximum is kept), starting from score `0`
and index `-1`. -/
def bestMatchFold (name : List Char) (cands : List (List Char)) : ℚ × ℤ :=
  cands.enum.foldl (fun best p =>
    let similarity := calculateOptimizedSimilarity name p.2 (17/20)
    if similarity > best.1 then (similarity, (p.1 : ℤ)) else best) (0, -1)

/-- One iteration of the fuzzy pass for an unmatched activity entry: scan
the snapshot `unmatchedRosterNames` (pairs of the original roster index and
the entry, fixed before the pass), and on a best score above `0.85` mark
the chosen roster entry and the activity entry matched.  Selecting the
original index through the snapshot pair models the source's
`findIndex` on the (strictly increasing, hence unique) `rowIndex`. -/
def fuzzyStep (snapshot : List (ℕ × RosterEntry)) (st : MatchState) (a : ActivityEntry) :
    MatchState :=
  let b := bestMatchFold a.normalizedName (snapshot.map (fun p => p.2.normalizedName))
  if b.1 > 17/20 then
    let originalIndex := ((snapshot.get? b.2.toNat).map (fun p => p.1)).getD 0
    { st with
      roster := markMatchedAt st.roster originalIndex,
      acts := st.acts.map
        (fun e => if e.rowIndex = a.rowIndex then { e with matched := true } else e),
      fuzzyMatches := st.fuzzyMatches + 1,
      pairs := st.pairs ++ [(a.rowIndex, originalIndex)] }
  else st

/-- Batching of the fuzzy pass (`BATCH_SIZE = 50`), with the list length as
structurally decreasing fuel. -/
def chunksAux : ℕ → List ActivityEntry → List (List ActivityEntry)
  | _, [] => []
  | 0, l => [l]
  | fuel + 1, x :: xs => (x :: xs.take 49) :: chunksAux fuel (xs.drop 49)

/-- `unmatchedActivityNames.slice(batchStart, batchStart + 50)` for all
batch starts: the list cut into chunks of 50. -/
def chunks50 (l : List ActivityEntry) : List (List ActivityEntry) :=
  chunksAux l.length l

/-- The whole matching run of `main` on the two datasets: build both
record lists and the exact index, run the exact pass in activity order,
snapshot the unmatched residues, and run the batched fuzzy pass. -/
def runChecker (rosterRows : List (List Char × List Char))
    (activityRows : List (List Char)) : MatchState :=
  let rs := buildRoster rosterRows
  let scheduleANames := buildActivities activityRows
  let st1 := scheduleANames.foldl (exactStep rs.exactMap) ⟨rs.entries, [], 0, 0, []⟩
  let unmatchedActivityNames := st1.acts.filter (fun e => !e.matched)
  let unmatchedRosterNames := st1.roster.enum.filter (fun p => !p.2.matched)
  (chunks50 unmatchedActivityNames).foldl
    (fun st batch => batch.foldl (fuzzyStep unmatchedRosterNames) st) st1

/-- The unmatched statistic the source reports for the activity side:
`scheduleANames.length - exactMatches - fuzzyMatches`. -/
def unmatchedCount (st : MatchState) : ℕ :=
  st.acts.length - st.exactMatches - st.fuzzyMatches

theorem seventeen_twentieths_eq : (17/20 : ℚ) = mkRat 17 20 := by
  rw [Rat.mkRat_eq_div]; norm_num

/-- Kernel-computable twin of `bestMatchFold` (via `calcSim85`). -/
def bestMatchFold85 (name : List Char) (cands : List (List Char)) : ℚ × ℤ :=
  cands.enum.foldl (fun best p =>
    let similarity := calcSim85 name p.2
    if similarity > best.1 then (similarity, (p.1 : ℤ)) else best) (0, -1)

theorem bestMatchFold_eq : bestMatchFold = bestMatchFold85 := by
  funext name cands
  unfold bestMatchFold bestMatchFold85
  congr 1
  funext best p
  rw [calculateOptimizedSimilarity_at85]

/-- Kernel-computable twin of `fuzzyStep`. -/
def fuzzyStep85 (snapshot : List (ℕ × RosterEntry)) (st : MatchState) (a : ActivityEntry) :
    MatchState :=
  let b := bestMatchFold85 a.normalizedName (snapshot.map (fun p => p.2.normalizedName))
  if b.1 > mkRat 17 20 then
    let originalIndex := ((snapshot.get? b.2.toNat).map (fun p => p.1)).getD 0
    { st with
      roster := markMatchedAt st.roster originalIndex,
      acts := st.acts.map
        (fun e => if e.rowIndex = a.rowIndex then { e with matched := true } else e),
      fuzzyMatches := st.fuzzyMatches + 1,
      pairs := st.pairs ++ [(a.rowIndex, originalIndex)] }
  else st

theorem fuzzyStep_eq : fuzzyStep = fuzzyStep85 := by
  funext snapshot st a
  unfold fuzzyStep fuzzyStep85
  rw [bestMatchFold_eq, seventeen_twentieths_eq]

/-- Kernel-computable twin of `runChecker`. -/
def runChecker85 (rosterRows : List (List Char × List Char))
    (activityRows : List (List Char)) : MatchState :=
  let rs := buildRoster rosterRows
  let scheduleANames := buildActivities activityRows
  let st1 := scheduleANames.foldl (exactStep rs.exactMap) ⟨rs.entries, [], 0, 0, []⟩
  let unmatchedActivityNames := st1.acts.filter (fun e => !e.matched)
  let unmatchedRosterNames := st1.roster.enum.filter (fun p => !p.2.matched)
  (chunks50 unmatchedActivityNames).foldl
    (fun st batch => batch.foldl (fuzzyStep85 unmatchedRosterNames) st) st1

theorem runChecker_eq : runChecker = runChecker85 := by
  funext rosterRows activityRows
  unfold runChecker runChecker85
  rw [fuzzyStep_eq]

example :
    (runChecker85 [((("john smith").toList), []), ((("jane doe").toList), [])]
      [(("John Smith (note)").toList), (("jane dow").toList)]).pairs = [(0, 0), (1, 1)] := by
  decide
example :
    (runChecker85 [((("john smith").toList), []), ((("jane doe").toList), [])]
      [(("John Smith (note)").toList), (("jane dow").toList)]).exactMatches = 1 := by
  decide

theorem toLower_eq_self (c : Char) (h : ¬(65 ≤ c.toNat ∧ c.toNat ≤ 90)) :
    c.toLower = c := by
  simp only [Char.toLower]
  rw [if_neg (by omega)]

theorem alpha_toLower_self (c : Char) (h : isLowerAlpha c = true) : c.toLower = c := by
  simp only [isLowerAlpha, Bool.and_eq_true, decide_eq_true_eq] at h
  exact toLower_eq_self c (by omega)

theorem not_ws_of_alpha (c : Char) (h : isLowerAlpha c = true) :
    isJsWhitespace c = false := by
  simp only [isLowerAlpha, Bool.and_eq_true, decide_eq_true_eq] at h
  have b1 : decide (c = ' ') = false :=
    decide_eq_false fun he => by subst he; revert h; decide
  have b2 : decide (c = '\t') = false :=
    decide_eq_false fun he => by subst he; revert h; decide
  have b3 : decide (c = '\n') = false :=
    decide_eq_false fun he => by subst he; revert h; decide
  have b4 : decide (c = '\r') = false :=
    decide_eq_false fun he => by subst he; revert h; decide
  have b5 : decide (c.toNat = 11) = false := decide_eq_false (by omega)
  have b6 : decide (c.toNat = 12) = false := decide_eq_false (by omega)
  have b7 : decide (c.toNat = 160) = false := decide_eq_false (by omega)
  have b8 : decide (c.toNat = 65279) = false := decide_eq_false (by omega)
  unfold isJsWhitespace
  rw [b1, b2, b3, b4, b5, b6, b7, b8]
  rfl

theorem isLowerAlpha_eq_false_of (c : Char) (h : c.toNat < 97 ∨ 122 < c.toNat) :
    isLowerAlpha c = false := by
  unfold isLowerAlpha
  rcases h with h | h
  · rw [decide_eq_false (by omega : ¬(97 ≤ c.toNat))]
    rfl
  · rw [decide_eq_false (by omega : ¬(c.toNat ≤ 122))]
    exact Bool.and_false _

theorem ws_toLower_not_alpha (c : Char) (h : isJsWhitespace c = true) :
    isLowerAlpha c.toLower = false := by
  simp only [isJsWhitespace, Bool.or_eq_true, decide_eq_true_eq] at h
  rcases h with (((((((h|h)|h)|h)|h)|h)|h)|h)
  · subst h; decide
  · subst h; decide
  · subst h; decide
  · subst h; decide
  all_goals
    rw [toLower_eq_self c (by omega)]
    exact isLowerAlpha_eq_false_of c (by omega)

/-- The final two stages of normalization as one projection: lowercase and
keep only the characters in `[a-z]`. -/
def lowerAlphaProj (l : List Char) : List Char :=
  (l.map Char.toLower).filter isLowerAlpha

theorem lowerAlphaProj_append (l1 l2 : List Char) :
    lowerAlphaProj (l1 ++ l2) = lowerAlphaProj l1 ++ lowerAlphaProj l2 := by
  simp [lowerAlphaProj]

theorem lowerAlphaProj_reverse (l : List Char) :
    lowerAlphaProj l.reverse = (lowerAlphaProj l).reverse := by
  simp [lowerAlphaProj]

theorem lowerAlphaProj_cons_skip (c : Char) (l : List Char)
    (h : isLowerAlpha c.toLower = false) :
    lowerAlphaProj (c :: l) = lowerAlphaProj l := by
  simp [lowerAlphaProj, List.filter_cons, h]

theorem lowerAlphaProj_dropWhile (l : List Char) :
    lowerAlphaProj (l.dropWhile isJsWhitespace) = lowerAlphaProj l := by
  induction l with
  | nil => rfl
  | cons c t ih =>
      by_cases h : isJsWhitespace c
      · rw [List.dropWhile_cons, if_pos h, ih,
          lowerAlphaProj_cons_skip c t (ws_toLower_not_alpha c h)]
      · rw [List.dropWhile_cons, if_neg h]

theorem lowerAlphaProj_jsTrim (l : List Char) :
    lowerAlphaProj (jsTrim l) = lowerAlphaProj l := by
  unfold jsTrim
  rw [lowerAlphaProj_reverse, lowerAlphaProj_dropWhile, lowerAlphaProj_reverse,
    List.reverse_reverse, lowerAlphaProj_dropWhile]

theorem lowerAlphaProj_replaceSpHySp (l : List Char) :
    lowerAlphaProj (replaceSpHySp l) = lowerAlphaProj l := by
  induction l using replaceSpHySp.induct with
  | case1 c1 c2 c3 rest h ih =>
      obtain ⟨e1, e2, e3⟩ := h
      subst e1; subst e2; subst e3
      rw [show replaceSpHySp (' ' :: '-' :: ' ' :: rest) =
        ' ' :: replaceSpHySp rest from by rw [replaceSpHySp]; rw [if_pos ⟨rfl, rfl, rfl⟩]]
      rw [lowerAlphaProj_cons_skip ' ' _ (by decide),
        lowerAlphaProj_cons_skip ' ' _ (by decide),
        lowerAlphaProj_cons_skip '-' _ (by decide),
        lowerAlphaProj_cons_skip ' ' _ (by decide), ih]
  | case2 c1 c2 c3 rest h ih =>
      rw [show replaceSpHySp (c1 :: c2 :: c3 :: rest) =
        c1 :: replaceSpHySp (c2 :: c3 :: rest) from by rw [replaceSpHySp]; rw [if_neg h]]
      simp only [lowerAlphaProj, List.map_cons, List.filter_cons] at ih ⊢
      rw [ih]
  | case3 c rest h ih =>
      rcases rest with _ | ⟨c2, rest2⟩
      · rfl
      rcases rest2 with _ | ⟨c3, rest3⟩
      · rw [show replaceSpHySp [c, c2] = c :: replaceSpHySp [c2] from rfl]
        simp only [lowerAlphaProj, List.map_cons, List.filter_cons] at ih ⊢
        rw [ih]
      · exact absurd rfl (h c2 c3 rest3)
  | case4 => rfl

theorem lowerAlphaProj_replaceHySp (l : List Char) :
    lowerAlphaProj (replaceHySp l) = lowerAlphaProj l := by
  induction l using replaceHySp.induct with
  | case1 c1 c2 rest h ih =>
      obtain ⟨e1, e2⟩ := h
      subst e1; subst e2
      rw [show replaceHySp ('-' :: ' ' :: rest) = replaceHySp rest from by
        rw [replaceHySp]; rw [if_pos ⟨rfl, rfl⟩]]
      rw [lowerAlphaProj_cons_skip '-' _ (by decide),
        lowerAlphaProj_cons_skip ' ' _ (by decide), ih]
  | case2 c1 c2 rest h ih =>
      rw [show replaceHySp (c1 :: c2 :: rest) = c1 :: replaceHySp (c2 :: rest) from by
        rw [replaceHySp]; rw [if_neg h]]
      simp only [lowerAlphaProj, List.map_cons, List.filter_cons] at ih ⊢
      rw [ih]
  | case3 c rest h ih =>
      rcases rest with _ | ⟨c2, rest2⟩
      · rfl
      · exact absurd rfl (h c2 rest2)
  | case4 => rfl

theorem lowerAlphaProj_replaceSpHyEnd (l : List Char) :
    lowerAlphaProj (replaceSpHyEnd l) = lowerAlphaProj l := by
  unfold replaceSpHyEnd
  by_cases h : l.reverse.take 2 = ['-', ' ']
  · rw [if_pos h]
    have hrev : l.reverse = '-' :: ' ' :: l.reverse.drop 2 := by
      conv_lhs => rw [← List.take_append_drop 2 l.reverse]
      rw [h]
      rfl
    have hl : l = (l.reverse.drop 2).reverse ++ [' ', '-'] := by
      conv_lhs => rw [← l.reverse_reverse]
      rw [hrev]
      simp
    conv_rhs => rw [hl]
    rw [lowerAlphaProj_append, show lowerAlphaProj [' ', '-'] = [] from by decide,
      List.append_nil]
  · rw [if_neg h]

theorem mem_jsTrim (l : List Char) (c : Char) (h : c ∈ jsTrim l) : c ∈ l := by
  unfold jsTrim at h
  rw [List.mem_reverse] at h
  have h1 := (List.dropWhile_sublist _).subset h
  rw [List.mem_reverse] at h1
  exact (List.dropWhile_sublist _).subset h1

theorem mem_replaceSpHySp (l : List Char) (c : Char) (h : c ∈ replaceSpHySp l) :
    c ∈ l ∨ c = ' ' := by
  induction l using replaceSpHySp.induct with
  | case1 c1 c2 c3 rest hm ih =>
      obtain ⟨e1, e2, e3⟩ := hm
      subst e1; subst e2; subst e3
      rw [show replaceSpHySp (' ' :: '-' :: ' ' :: rest) =
        ' ' :: replaceSpHySp rest from by rw [replaceSpHySp]; rw [if_pos ⟨rfl, rfl, rfl⟩]] at h
      rcases List.mem_cons.mp h with h | h
      · right; exact h
      · rcases ih h with h | h
        · left; simp [h]
        · right; exact h
  | case2 c1 c2 c3 rest hm ih =>
      rw [show replaceSpHySp (c1 :: c2 :: c3 :: rest) =
        c1 :: replaceSpHySp (c2 :: c3 :: rest) from by
          rw [replaceSpHySp]; rw [if_neg hm]] at h
      rcases List.mem_cons.mp h with h | h
      · left; exact h ▸ List.mem_cons_self _ _
      · rcases ih h with h | h
        · left; exact List.mem_cons_of_mem _ h
        · right; exact h
  | case3 c1 rest hm ih =>
      rcases rest with _ | ⟨c2, rest2⟩
      · left; exact h
      rcases rest2 with _ | ⟨c3, rest3⟩
      · rw [show replaceSpHySp [c1, c2] = c1 :: replaceSpHySp [c2] from rfl] at h
        rcases List.mem_cons.mp h with h | h
        · left; exact h ▸ List.mem_cons_self _ _
        · rcases ih h with h | h
          · left; exact List.mem_cons_of_mem _ h
          · right; exact h
      · exact absurd rfl (hm c2 c3 rest3)
  | case4 => cases h

theorem mem_replaceHySp (l : List Char) (c : Char) (h : c ∈ replaceHySp l) : c ∈ l := by
  induction l using replaceHySp.induct with
  | case1 c1 c2 rest hm ih =>
      obtain ⟨e1, e2⟩ := hm
      subst e1; subst e2
      rw [show replaceHySp ('-' :: ' ' :: rest) = replaceHySp rest from by
        rw [replaceHySp]; rw [if_pos ⟨rfl, rfl⟩]] at h
      simp [ih h]
  | case2 c1 c2 rest hm ih =>
      rw [show replaceHySp (c1 :: c2 :: rest) = c1 :: replaceHySp (c2 :: rest) from by
        rw [replaceHySp]; rw [if_neg hm]] at h
      rcases List.mem_cons.mp h with h | h
      · exact h ▸ List.mem_cons_self _ _
      · exact List.mem_cons_of_mem _ (ih h)
  | case3 c1 rest hm ih =>
      rcases rest with _ | ⟨c2, rest2⟩
      · exact h
      · exact absurd rfl (hm c2 rest2)
  | case4 => cases h

theorem mem_replaceSpHyEnd (l : List Char) (c : Char) (h : c ∈ replaceSpHyEnd l) :
    c ∈ l := by
  unfold replaceSpHyEnd at h
  by_cases hc : l.reverse.take 2 = ['-', ' ']
  · rw [if_pos hc] at h
    rw [List.mem_reverse] at h
    have := List.mem_of_mem_drop h
    rwa [List.mem_reverse] at this
  · rwa [if_neg hc] at h

theorem cleanName_no_paren (s : List Char) (c : Char) (h : c ∈ cleanName s) : c ≠ '(' := by
  unfold cleanName at h
  have h1 := mem_jsTrim _ _ h
  have h2 := mem_replaceSpHyEnd _ _ h1
  have h3 := mem_replaceHySp _ _ h2
  rcases mem_replaceSpHySp _ _ h3 with h4 | h4
  · have h5 := mem_jsTrim _ _ h4
    have h6 := List.mem_takeWhile_imp h5
    simpa using h6
  · subst h4; decide

theorem takeWhile_cleanName (s : List Char) :
    (cleanName s).takeWhile (fun c => c ≠ '(') = cleanName s :=
  List.takeWhile_eq_self_iff.mpr fun c hc => by
    simpa using cleanName_no_paren s c hc

theorem normalizeActivityName_eq_proj (x : List Char) :
    normalizeActivityName x =
      lowerAlphaProj (jsTrim (x.takeWhile (fun c => c ≠ '('))) := by
  unfold normalizeActivityName lowerAlphaProj
  rw [List.filter_filter]
  exact List.filter_congr fun a _ => by
    by_cases ha : isLowerAlpha a
    · simp [ha, not_ws_of_alpha a ha]
    · simp [ha]

/-- The simple normalization described by the refinement claim: truncate at
the first parenthesis, lowercase, delete every character outside `[a-z]`. -/
def simpleNormalize (s : List Char) : List Char :=
  ((s.takeWhile (fun c => c ≠ '(')).map Char.toLower).filter isLowerAlpha

theorem comp_eq_simpleNormalize (s : List Char) :
    normalizeActivityName (cleanName s) = simpleNormalize s := by
  rw [normalizeActivityName_eq_proj, takeWhile_cleanName, lowerAlphaProj_jsTrim]
  unfold cleanName
  rw [lowerAlphaProj_jsTrim, lowerAlphaProj_replaceSpHyEnd, lowerAlphaProj_replaceHySp,
    lowerAlphaProj_replaceSpHySp, lowerAlphaProj_jsTrim]
  rfl

theorem simpleNormalize_fix (l : List Char) (h : ∀ c ∈ l, isLowerAlpha c = true) :
    simpleNormalize l = l := by
  unfold simpleNormalize
  rw [List.takeWhile_eq_self_iff.mpr fun c hc => by
    have := h c hc
    simp only [isLowerAlpha, Bool.and_eq_true, decide_eq_true_eq] at this
    simp only [decide_eq_true_eq]
    exact fun he => by rw [he] at this; revert this; decide]
  rw [show l.map Char.toLower = l from by
    have h1 : l.map Char.toLower = l.map id :=
      List.map_congr_left fun a ha => alpha_toLower_self a (h a ha)
    rw [h1, List.map_id]]
  exact List.filter_eq_self.mpr h

theorem simpleNormalize_all_alpha (s : List Char) :
    ∀ c ∈ simpleNormalize s, isLowerAlpha c = true := by
  intro c hc
  unfold simpleNormalize at hc
  exact (List.mem_filter.mp hc).2

theorem charSet_aux_mem (c : Char) : ∀ s acc : List Char,
    (c ∈ s.foldl (fun acc c => if c ∈ acc then acc else acc ++ [c]) acc) ↔
      c ∈ acc ∨ c ∈ s := by
  intro s
  induction s with
  | nil => intro acc; simp
  | cons c0 t ih =>
      intro acc
      rw [List.foldl_cons, ih]
      by_cases h : c0 ∈ acc
      · rw [if_pos h]
        constructor
        · rintro (h1 | h1)
          · exact Or.inl h1
          · exact Or.inr (List.mem_cons_of_mem _ h1)
        · rintro (h1 | h1)
          · exact Or.inl h1
          · rcases List.mem_cons.mp h1 with h2 | h2
            · exact Or.inl (h2 ▸ h)
            · exact Or.inr h2
      · rw [if_neg h]
        simp only [List.mem_append, List.mem_singleton, List.mem_cons]
        tauto

theorem charSet_mem (s : List Char) (c : Char) : c ∈ charSet s ↔ c ∈ s := by
  unfold charSet
  rw [charSet_aux_mem]
  simp

theorem charSet_aux_nodup : ∀ s acc : List Char, acc.Nodup →
    (s.foldl (fun acc c => if c ∈ acc then acc else acc ++ [c]) acc).Nodup := by
  intro s
  induction s with
  | nil => intro acc h; exact h
  | cons c0 t ih =>
      intro acc h
      rw [List.foldl_cons]
      by_cases hm : c0 ∈ acc
      · rw [if_pos hm]; exact ih acc h
      · rw [if_neg hm]
        refine ih _ ?_
        rw [List.nodup_append]
        exact ⟨h, List.nodup_singleton _,
          fun a ha hc => hm ((List.mem_singleton.mp hc) ▸ ha)⟩

theorem charSet_nodup (s : List Char) : (charSet s).Nodup :=
  charSet_aux_nodup s [] List.nodup_nil

theorem nodup_filter_length (l : List Char) (p : Char → Bool) (h : l.Nodup) :
    (l.filter p).length = (l.filter p).toFinset.card := by
  rw [List.card_toFinset, List.Nodup.dedup (h.filter p)]

theorem filter_mem_toFinset (l1 l2 : List Char) :
    (l1.filter (fun c => decide (c ∈ l2))).toFinset = l1.toFinset ∩ l2.toFinset := by
  ext c
  simp [List.mem_filter]

theorem inter_length_symm (l1 l2 : List Char) (h1 : l1.Nodup) (h2 : l2.Nodup) :
    (l1.filter (fun c => decide (c ∈ l2))).length =
      (l2.filter (fun c => decide (c ∈ l1))).length := by
  rw [nodup_filter_length _ _ h1, nodup_filter_length _ _ h2,
    filter_mem_toFinset, filter_mem_toFinset, Finset.inter_comm]

theorem union_length_card (l1 l2 : List Char) (h1 : l1.Nodup) (h2 : l2.Nodup) :
    (l1 ++ l2.filter (fun c => decide (c ∉ l1))).length =
      (l1.toFinset ∪ l2.toFinset).card := by
  rw [List.length_append]
  have e1 : l1.length = l1.toFinset.card := by
    rw [List.card_toFinset, List.Nodup.dedup h1]
  have e2 : (l2.filter (fun c => decide (c ∉ l1))).length =
      (l2.toFinset \ l1.toFinset).card := by
    rw [nodup_filter_length _ _ h2]
    congr 1
    ext c
    simp [List.mem_filter]
  rw [e1, e2, Nat.add_comm, Finset.card_sdiff_add_card, Finset.union_comm]

theorem jaccardSimilarity_symm (s1 s2 : List Char) :
    jaccardSimilarity s1 s2 = jaccardSimilarity s2 s1 := by
  unfold jaccardSimilarity
  dsimp only
  have n1 := charSet_nodup s1
  have n2 := charSet_nodup s2
  rw [inter_length_symm _ _ n1 n2, union_length_card _ _ n1 n2,
    union_length_card _ _ n2 n1, Finset.union_comm]

theorem firstCharNe_symm (s1 s2 : List Char) : firstCharNe s1 s2 = firstCharNe s2 s1 := by
  rcases s1 with _ | ⟨c1, t1⟩ <;> rcases s2 with _ | ⟨c2, t2⟩ <;>
    simp [firstCharNe, ne_comm]

theorem calcSim_symm (s1 s2 : List Char) (threshold : ℚ) :
    calculateOptimizedSimilarity s1 s2 threshold =
      calculateOptimizedSimilarity s2 s1 threshold := by
  unfold calculateOptimizedSimilarity
  dsimp only
  have hd : ((s1.length : ℤ) - s2.length).natAbs = ((s2.length : ℤ) - s1.length).natAbs := by
    rw [← Int.natAbs_neg, neg_sub]
  have hm : max s1.length s2.length = max s2.length s1.length := max_comm _ _
  rw [hd, hm, firstCharNe_symm, jaccardSimilarity_symm]
  refine if_congr Iff.rfl rfl (if_congr Iff.rfl rfl (if_congr Iff.rfl rfl
    (if_congr Iff.rfl rfl ?_)))
  have hsym : lev s1 s2 = lev s2 s1 := lev_symm s1 s2
  rcases levenshteinDistanceWithLimit_spec s1 s2
      ⌊((max s2.length s1.length : ℕ) : ℚ) * (1 - threshold)⌋ with h12 | h12 <;>
    rcases levenshteinDistanceWithLimit_spec s2 s1
      ⌊((max s2.length s1.length : ℕ) : ℚ) * (1 - threshold)⌋ with h21 | h21
  · rw [h12, h21, hsym]
  · rw [h12, h21.1, hsym]
    have hgt := h21.2
    rw [← hsym] at hgt
    rw [if_pos (by omega : (⌊((max s2.length s1.length : ℕ) : ℚ) * (1 - threshold)⌋ : ℤ) <
      ((lev s2 s1 : ℕ) : ℤ)), if_pos (by omega)]
  · rw [h12.1, h21, ← hsym]
    have hgt := h12.2
    rw [if_pos (by omega : (⌊((max s2.length s1.length : ℕ) : ℚ) * (1 - threshold)⌋ : ℤ) <
      ((lev s1 s2 : ℕ) : ℤ)), if_pos (by omega)]
  · rw [h12.1, h21.1]

theorem chunksAux_flatten : ∀ (fuel : ℕ) (l : List ActivityEntry), l.length ≤ fuel →
    (chunksAux fuel l).flatten = l := by
  intro fuel
  induction fuel with
  | zero =>
      intro l h
      rcases l with _ | ⟨x, xs⟩
      · rfl
      · simp at h
  | succ fuel ih =>
      intro l h
      rcases l with _ | ⟨x, xs⟩
      · rfl
      · rw [show chunksAux (fuel + 1) (x :: xs) =
          (x :: xs.take 49) :: chunksAux fuel (xs.drop 49) from rfl]
        rw [List.flatten_cons, ih (xs.drop 49) (by simp at h ⊢; omega)]
        simp

theorem chunks50_flatten (l : List ActivityEntry) : (chunks50 l).flatten = l :=
  chunksAux_flatten l.length l le_rfl

theorem chunked_foldl (l : List ActivityEntry) (f : MatchState → ActivityEntry → MatchState)
    (st : MatchState) :
    (chunks50 l).foldl (fun st batch => batch.foldl f st) st = l.foldl f st := by
  rw [← chunks50_flatten l, List.foldl_flatten, chunks50_flatten]

/-- The effect of the exact pass on a single activity entry. -/
def exactProcess (m : List (List Char × ℕ)) (a : ActivityEntry) : ActivityEntry :=
  match mapGet m a.normalizedName with
  | some _ => { a with matched := true }
  | none => a

theorem exactProcess_rowIndex (m : List (List Char × ℕ)) (a : ActivityEntry) :
    (exactProcess m a).rowIndex = a.rowIndex := by
  unfold exactProcess
  rcases mapGet m a.normalizedName <;> rfl

theorem exactProcess_name (m : List (List Char × ℕ)) (a : ActivityEntry) :
    (exactProcess m a).normalizedName = a.normalizedName := by
  unfold exactProcess
  rcases mapGet m a.normalizedName <;> rfl

theorem exactStep_cases (m : List (List Char × ℕ)) (st : MatchState) (a : ActivityEntry) :
    ((exactStep m st a).acts = st.acts ++ [exactProcess m a] ∧
      (exactStep m st a).fuzzyMatches = st.fuzzyMatches) ∧
    ((∃ i, mapGet m a.normalizedName = some i ∧
        (exactStep m st a).pairs = st.pairs ++ [(a.rowIndex, i)] ∧
        (exactProcess m a).matched = true) ∨
      (mapGet m a.normalizedName = none ∧ (exactStep m st a).pairs = st.pairs ∧
        exactProcess m a = a)) := by
  unfold exactStep exactProcess
  rcases h : mapGet m a.normalizedName with _ | i
  · exact ⟨⟨rfl, rfl⟩, Or.inr ⟨rfl, rfl, rfl⟩⟩
  · exact ⟨⟨rfl, rfl⟩, Or.inl ⟨i, rfl, rfl, rfl⟩⟩

theorem exactFold_spec (m : List (List Char × ℕ)) : ∀ (l : List ActivityEntry) (st : MatchState),
    (∀ a ∈ l, a.matched = false) →
    (l.foldl (exactStep m) st).acts = st.acts ++ l.map (exactProcess m) ∧
    (l.foldl (exactStep m) st).fuzzyMatches = st.fuzzyMatches ∧
    ∃ q, (l.foldl (exactStep m) st).pairs = st.pairs ++ q ∧
      q.map Prod.fst =
        ((l.map (exactProcess m)).filter (fun e => e.matched)).map (fun e => e.rowIndex) := by
  intro l
  induction l with
  | nil => intro st _; exact ⟨by simp, rfl, [], by simp, by simp⟩
  | cons a l ih =>
      intro st hm
      obtain ⟨⟨hacts, hfz⟩, hcase⟩ := exactStep_cases m st a
      obtain ⟨ih1, ih2, q, ih3, ih4⟩ := ih (exactStep m st a) (fun x hx => hm x (List.mem_cons_of_mem _ hx))
      refine ⟨?_, ?_, ?_⟩
      · rw [List.foldl_cons, ih1, hacts]
        simp
      · rw [List.foldl_cons, ih2, hfz]
      · rcases hcase with ⟨i, _, hp, hmt⟩ | ⟨_, hp, hpr⟩
        · refine ⟨(a.rowIndex, i) :: q, ?_, ?_⟩
          · rw [List.foldl_cons, ih3, hp]
            simp
          · simp only [List.map_cons, List.filter_cons, hmt, ih4]
            simp [exactProcess_rowIndex]
        · refine ⟨q, ?_, ?_⟩
          · rw [List.foldl_cons, ih3, hp]
          · simp only [List.map_cons, List.filter_cons, hpr, hm a (List.mem_cons_self a l), ih4]
            simp


theorem fuzzyStep_cases (snapshot : List (ℕ × RosterEntry)) (st : MatchState)
    (a : ActivityEntry) :
    ((fuzzyStep snapshot st a).pairs = st.pairs ∧ (fuzzyStep snapshot st a).acts = st.acts) ∨
    (∃ i, (fuzzyStep snapshot st a).pairs = st.pairs ++ [(a.rowIndex, i)] ∧
      (fuzzyStep snapshot st a).acts = st.acts.map
        (fun e => if e.rowIndex = a.rowIndex then { e with matched := true } else e)) := by
  unfold fuzzyStep
  by_cases h : (bestMatchFold a.normalizedName
      (snapshot.map (fun p => p.2.normalizedName))).1 > 17/20
  · rw [if_pos h]
    exact Or.inr ⟨_, rfl, rfl⟩
  · rw [if_neg h]
    exact Or.inl ⟨rfl, rfl⟩

theorem fuzzyFold_pairs (snapshot : List (ℕ × RosterEntry)) :
    ∀ (l : List ActivityEntry) (st : MatchState),
    ∃ q, (l.foldl (fuzzyStep snapshot) st).pairs = st.pairs ++ q ∧
      List.Sublist (q.map Prod.fst) (l.map (fun e => e.rowIndex)) := by
  intro l
  induction l with
  | nil => intro st; exact ⟨[], by simp, by simp⟩
  | cons a l ih =>
      intro st
      obtain ⟨q, hq, hsub⟩ := ih (fuzzyStep snapshot st a)
      rcases fuzzyStep_cases snapshot st a with ⟨hp, _⟩ | ⟨i, hp, _⟩
      · refine ⟨q, ?_, ?_⟩
        · rw [List.foldl_cons, hq, hp]
        · exact hsub.trans (List.sublist_cons_self _ _)
      · refine ⟨(a.rowIndex, i) :: q, ?_, ?_⟩
        · rw [List.foldl_cons, hq, hp]
          simp
        · simpa using List.Sublist.cons₂ a.rowIndex hsub

theorem fuzzyFold_acts_proj (snapshot : List (ℕ × RosterEntry)) :
    ∀ (l : List ActivityEntry) (st : MatchState),
    ((l.foldl (fuzzyStep snapshot) st).acts).map (fun e => (e.rowIndex, e.normalizedName)) =
      st.acts.map (fun e => (e.rowIndex, e.normalizedName)) := by
  intro l
  induction l with
  | nil => intro st; rfl
  | cons a l ih =>
      intro st
      rw [List.foldl_cons, ih]
      rcases fuzzyStep_cases snapshot st a with ⟨_, hacts⟩ | ⟨i, _, hacts⟩
      · rw [hacts]
      · rw [hacts, List.map_map]
        apply List.map_congr_left
        intro e _
        by_cases he : e.rowIndex = a.rowIndex <;> simp [he]

theorem activityStep_eq (acc : List ActivityEntry) (row : ℕ × List Char) :
    activityStep acc row =
      if jsTrim row.2 ≠ [] then
        (if normalizeActivityName (cleanName row.2) ≠ [] then
          acc ++ [⟨normalizeActivityName (cleanName row.2), row.1, false⟩] else acc)
      else acc := rfl

theorem buildActivities_entries (rows : List (List Char)) :
    ∀ e ∈ buildActivities rows,
      e.matched = false ∧ e.normalizedName ≠ [] ∧
      ∃ raw, rows.get? e.rowIndex = some raw ∧
        e.normalizedName = normalizeActivityName (cleanName raw) := by
  have main : ∀ (l : List (ℕ × List Char)) (acc : List ActivityEntry),
      (∀ e ∈ acc, e.matched = false ∧ e.normalizedName ≠ [] ∧
        ∃ raw, rows.get? e.rowIndex = some raw ∧
          e.normalizedName = normalizeActivityName (cleanName raw)) →
      (∀ p ∈ l, rows.get? p.1 = some p.2) →
      ∀ e ∈ l.foldl activityStep acc,
        e.matched = false ∧ e.normalizedName ≠ [] ∧
        ∃ raw, rows.get? e.rowIndex = some raw ∧
          e.normalizedName = normalizeActivityName (cleanName raw) := by
    intro l
    induction l with
    | nil => intro acc hacc _ e he; exact hacc e he
    | cons p l ih =>
        intro acc hacc hl e he
        rw [List.foldl_cons] at he
        refine ih _ ?_ (fun p' hp' => hl p' (List.mem_cons_of_mem _ hp')) e he
        intro e' he'
        rw [activityStep_eq] at he'
        have hget : rows.get? p.1 = some p.2 := hl p (List.mem_cons_self _ _)
        generalize hn : normalizeActivityName (cleanName p.2) = nn at he'
        by_cases h1 : jsTrim p.2 ≠ []
        · rw [if_pos h1] at he'
          by_cases h2 : nn ≠ []
          · rw [if_pos h2] at he'
            rcases List.mem_append.mp he' with h | h
            · exact hacc e' h
            · rw [List.mem_singleton.mp h]
              exact ⟨rfl, h2, p.2, hget, hn.symm⟩
          · rw [if_neg h2] at he'
            exact hacc e' he'
        · rw [if_neg h1] at he'
          exact hacc e' he'
  intro e he
  refine main rows.enum []
    (fun e' he' => absurd he' (List.not_mem_nil e')) ?_ e he
  intro p hp
  exact List.mem_enum_iff_get?.mp hp

theorem activityStep_rowIndex_sublist (acc : List ActivityEntry) (p : ℕ × List Char) :
    List.Sublist ((activityStep acc p).map (fun e => e.rowIndex))
      (acc.map (fun e => e.rowIndex) ++ [p.1]) := by
  rw [activityStep_eq]
  generalize normalizeActivityName (cleanName p.2) = nn
  by_cases h1 : jsTrim p.2 ≠ []
  · rw [if_pos h1]
    by_cases h2 : nn ≠ []
    · rw [if_pos h2]
      simp
    · rw [if_neg h2]
      exact (List.sublist_append_left _ _)
  · rw [if_neg h1]
    exact (List.sublist_append_left _ _)

theorem buildActivities_rowIndex_sublist (rows : List (List Char)) :
    List.Sublist ((buildActivities rows).map (fun e => e.rowIndex))
      (rows.enum.map Prod.fst) := by
  have main : ∀ (l : List (ℕ × List Char)) (acc : List ActivityEntry),
      List.Sublist ((l.foldl activityStep acc).map (fun e => e.rowIndex))
        (acc.map (fun e => e.rowIndex) ++ l.map Prod.fst) := by
    intro l
    induction l with
    | nil => intro acc; simp
    | cons p l ih =>
        intro acc
        rw [List.foldl_cons]
        refine (ih _).trans ?_
        have heq : (activityStep acc p).map (fun e => e.rowIndex) ++ l.map Prod.fst =
            (activityStep acc p).map (fun e => e.rowIndex) ++ l.map Prod.fst := rfl
        have hs := activityStep_rowIndex_sublist acc p
        have := List.Sublist.append_right hs (l.map Prod.fst)
        refine this.trans ?_
        rw [List.append_assoc]
        simp
  have h := main rows.enum []
  simpa using h

theorem buildActivities_rowIndex_nodup (rows : List (List Char)) :
    ((buildActivities rows).map (fun e => e.rowIndex)).Nodup :=
  List.Nodup.sublist (buildActivities_rowIndex_sublist rows)
    (List.nodup_enum_map_fst rows)

/-! ### The exact-match map: `Map.set` semantics and the index it builds -/

/-- The position of the last roster entry whose normalized name is `k`
(the specification value the exact-match map is compared against). -/
def lastIdx (es : List RosterEntry) (k : List Char) : Option ℕ :=
  ((es.enum.filter (fun p => decide (p.2.normalizedName = k))).map Prod.fst).getLast?

/-- The position of the first roster entry whose normalized name is `k`
(the value the spec's construction policy describes). -/
def firstIdx (es : List RosterEntry) (k : List Char) : Option ℕ :=
  ((es.enum.filter (fun p => decide (p.2.normalizedName = k))).map Prod.fst).head?

theorem map_replace_eq_self (m : List (List Char × ℕ)) (k : List Char) (v : ℕ)
    (h : ∀ p ∈ m, p.1 ≠ k) :
    m.map (fun p => if p.1 = k then (k, v) else p) = m := by
  induction m with
  | nil => rfl
  | cons p m ih =>
      rw [List.map_cons, if_neg (h p (List.mem_cons_self _ _)),
        ih (fun q hq => h q (List.mem_cons_of_mem _ hq))]

theorem not_any_of_forall_ne (m : List (List Char × ℕ)) (k : List Char)
    (h : ∀ p ∈ m, p.1 ≠ k) :
    m.any (fun p => decide (p.1 = k)) = false := by
  rw [List.any_eq_false]
  intro p hp
  simpa using h p hp

theorem mapGet_map_replace (m : List (List Char × ℕ)) (k : List Char) (v : ℕ)
    (k' : List Char) (hany : m.any (fun p => decide (p.1 = k)) = true) :
    mapGet (m.map (fun p => if p.1 = k then (k, v) else p)) k' =
      if k' = k then some v else mapGet m k' := by
  induction m with
  | nil => simp at hany
  | cons p m ih =>
      rw [List.map_cons]
      by_cases hp : p.1 = k
      · rw [if_pos hp]
        by_cases hk : k' = k
        · subst hk
          simp [mapGet, List.find?_cons]
        · rw [if_neg hk]
          have hne : ¬((k, v).1 = k') := fun h => hk h.symm
          have hne' : ¬(p.1 = k') := by rw [hp]; exact fun h => hk h.symm
          rw [mapGet, List.find?_cons_of_neg _ (by simpa using hne),
            mapGet, List.find?_cons_of_neg _ (by simpa using hne')]
          by_cases htail : m.any (fun q => decide (q.1 = k)) = true
          · have := ih htail
            rw [mapGet] at this
            rw [this, if_neg hk, mapGet]
          · have hall : ∀ q ∈ m, q.1 ≠ k := by
              intro q hq
              simpa using List.any_eq_false.mp (Bool.eq_false_iff.mpr htail) q hq
            rw [map_replace_eq_self m k v hall]
      · rw [if_neg hp]
        have htail : m.any (fun q => decide (q.1 = k)) = true := by
          rcases List.any_eq_true.mp hany with ⟨q, hq, hqk⟩
          rcases List.mem_cons.mp hq with h | h
          · exact absurd (h ▸ of_decide_eq_true hqk) hp
          · exact List.any_eq_true.mpr ⟨q, h, hqk⟩
        by_cases hpk' : p.1 = k'
        · have hk : ¬(k' = k) := fun h => hp (hpk'.trans h)
          rw [if_neg hk, mapGet, List.find?_cons_of_pos _ (by simpa using hpk'),
            mapGet, List.find?_cons_of_pos _ (by simpa using hpk')]
        · rw [mapGet, List.find?_cons_of_neg _ (by simpa using hpk'),
            mapGet, List.find?_cons_of_neg _ (by simpa using hpk')]
          have := ih htail
          rw [mapGet] at this
          rw [this, mapGet]

theorem mapGet_mapSet (m : List (List Char × ℕ)) (k : List Char) (v : ℕ)
    (k' : List Char) :
    mapGet (mapSet m k v) k' = if k' = k then some v else mapGet m k' := by
  rw [mapSet]
  by_cases hany : m.any (fun p => decide (p.1 = k)) = true
  · rw [if_pos hany]
    exact mapGet_map_replace m k v k' hany
  · rw [if_neg hany]
    have hnone : m.find? (fun p => decide (p.1 = k')) = none ∨ ¬(k' = k) := by
      by_cases hk : k' = k
      · subst hk
        left
        rw [List.find?_eq_none]
        intro p hp
        have := (List.any_eq_false.mp (Bool.eq_false_iff.mpr hany)) p hp
        simpa using this
      · exact Or.inr hk
    rw [mapGet, List.find?_append]
    by_cases hk : k' = k
    · subst hk
      rcases hnone with h | h
      · rw [h]
        simp [List.find?_cons]
      · exact absurd rfl h
    · rw [if_neg hk]
      have hsing : List.find? (fun p => decide (p.1 = k')) [(k, v)] = none := by
        rw [List.find?_eq_none]
        intro p hp
        rw [List.mem_singleton.mp hp]
        simpa using fun h => hk h.symm
      rw [hsing]
      cases hfind : m.find? (fun p => decide (p.1 = k')) with
      | none => rw [mapGet, hfind]; rfl
      | some q => rw [mapGet, hfind]; rfl

theorem lastIdx_concat (es : List RosterEntry) (e : RosterEntry) (k : List Char) :
    lastIdx (es ++ [e]) k =
      if e.normalizedName = k then some es.length else lastIdx es k := by
  unfold lastIdx
  rw [List.enum_append, show List.enumFrom es.length [e] = [(es.length, e)] from rfl,
    List.filter_append, List.map_append]
  by_cases he : e.normalizedName = k
  · rw [if_pos he]
    rw [show List.filter (fun p => decide (p.2.normalizedName = k)) [(es.length, e)] =
      [(es.length, e)] from by simp [List.filter_cons, he]]
    rw [List.map_singleton, List.getLast?_concat]
  · rw [if_neg he]
    rw [show List.filter (fun p => decide (p.2.normalizedName = k)) [(es.length, e)] =
      [] from by simp [List.filter_cons, he]]
    rw [List.map_nil, List.append_nil]

theorem rosterStep_eq (st : RosterState) (row : ℕ × (List Char × List Char)) :
    rosterStep st row =
      if normalizeName (cleanName row.2.1) (cleanName row.2.2) ≠ [] then
        { entries := st.entries ++
            [⟨normalizeName (cleanName row.2.1) (cleanName row.2.2), row.1, false⟩],
          exactMap := mapSet st.exactMap
            (normalizeName (cleanName row.2.1) (cleanName row.2.2)) st.entries.length }
      else st := rfl

theorem buildRoster_lastIdx (rows : List (List Char × List Char)) (k : List Char) :
    mapGet (buildRoster rows).exactMap k = lastIdx (buildRoster rows).entries k := by
  have main : ∀ (l : List (ℕ × (List Char × List Char))) (st : RosterState),
      (∀ k', mapGet st.exactMap k' = lastIdx st.entries k') →
      ∀ k', mapGet (l.foldl rosterStep st).exactMap k' =
        lastIdx (l.foldl rosterStep st).entries k' := by
    intro l
    induction l with
    | nil => intro st h k'; exact h k'
    | cons p l ih =>
        intro st h k'
        rw [List.foldl_cons]
        refine ih _ ?_ k'
        intro k''
        rw [rosterStep_eq]
        generalize normalizeName (cleanName p.2.1) (cleanName p.2.2) = nn
        by_cases hnn : nn ≠ []
        · rw [if_pos hnn]
          show mapGet (mapSet st.exactMap nn st.entries.length) k'' =
            lastIdx (st.entries ++ [⟨nn, p.1, false⟩]) k''
          rw [mapGet_mapSet, lastIdx_concat]
          by_cases hk : k'' = nn
          · rw [if_pos hk, if_pos hk.symm]
          · rw [if_neg hk, if_neg (fun he => hk he.symm), h k'']
        · rw [if_neg hnn]
          exact h k''
  exact main rows.enum ⟨[], []⟩ (fun k' => rfl) k

/-- `lastIdx` at the empty-map start: baseline sanity. -/
theorem buildRoster_entries_names (rows : List (List Char × List Char)) :
    ∀ e ∈ (buildRoster rows).entries, e.matched = false ∧ e.normalizedName ≠ [] := by
  have main : ∀ (l : List (ℕ × (List Char × List Char))) (st : RosterState),
      (∀ e ∈ st.entries, e.matched = false ∧ e.normalizedName ≠ []) →
      ∀ e ∈ (l.foldl rosterStep st).entries, e.matched = false ∧ e.normalizedName ≠ [] := by
    intro l
    induction l with
    | nil => intro st h e he; exact h e he
    | cons p l ih =>
        intro st h e he
        rw [List.foldl_cons] at he
        refine ih _ ?_ e he
        intro e' he'
        rw [rosterStep_eq] at he'
        generalize hn : normalizeName (cleanName p.2.1) (cleanName p.2.2) = nn at he'
        by_cases hnn : nn ≠ []
        · rw [if_pos hnn] at he'
          rcases List.mem_append.mp he' with hh | hh
          · exact h e' hh
          · rw [List.mem_singleton.mp hh]
            exact ⟨rfl, hnn⟩
        · rw [if_neg hnn] at he'
          exact h e' he'
  exact main rows.enum ⟨[], []⟩ (fun e he => absurd he (List.not_mem_nil e))

/-! ### The fuzzy scan: best score and earliest index -/

/-- The score the fuzzy pass computes for one candidate. -/
def scoreOf (name c : List Char) : ℚ := calculateOptimizedSimilarity name c (17/20)

/-- The fold step of the fuzzy scan (named form of the lambda in
`bestMatchFold`). -/
def bestStep (name : List Char) (best : ℚ × ℤ) (p : ℕ × List Char) : ℚ × ℤ :=
  let similarity := calculateOptimizedSimilarity name p.2 (17/20)
  if similarity > best.1 then (similarity, (p.1 : ℤ)) else best

/-- The fuzzy scan starting from an arbitrary position and accumulator. -/
def bestFrom (name : List Char) (n : ℕ) (l : List (List Char)) (acc : ℚ × ℤ) : ℚ × ℤ :=
  (List.enumFrom n l).foldl (bestStep name) acc

theorem bestMatchFold_eq_bestFrom (name : List Char) (cands : List (List Char)) :
    bestMatchFold name cands = bestFrom name 0 cands (0, -1) := rfl

theorem bestStep_eq (name : List Char) (acc : ℚ × ℤ) (n : ℕ) (c : List Char) :
    bestStep name acc (n, c) =
      if scoreOf name c > acc.1 then (scoreOf name c, (n : ℤ)) else acc := rfl

theorem bestFrom_inv (name : List Char) :
    ∀ (l : List (List Char)) (n : ℕ) (acc : ℚ × ℤ),
      acc.1 ≤ (bestFrom name n l acc).1 ∧
      (∀ j (hj : j < l.length),
        scoreOf name (l.get ⟨j, hj⟩) ≤ (bestFrom name n l acc).1) ∧
      (bestFrom name n l acc = acc ∨
        ∃ j, ∃ hj : j < l.length,
          (bestFrom name n l acc).2 = ((n + j : ℕ) : ℤ) ∧
          (bestFrom name n l acc).1 = scoreOf name (l.get ⟨j, hj⟩) ∧
          acc.1 < (bestFrom name n l acc).1 ∧
          ∀ j' (hj' : j' < j),
            scoreOf name (l.get ⟨j', hj'.trans hj⟩) < (bestFrom name n l acc).1) := by
  intro l
  induction l with
  | nil =>
      intro n acc
      exact ⟨le_rfl, fun j hj => absurd hj (Nat.not_lt_zero j), Or.inl rfl⟩
  | cons c l ih =>
      intro n acc
      have hunf : bestFrom name n (c :: l) acc =
          bestFrom name (n + 1) l (bestStep name acc (n, c)) := rfl
      obtain ⟨ihmono, ihmax, ihcase⟩ := ih (n + 1) (bestStep name acc (n, c))
      have hstep := bestStep_eq name acc n c
      by_cases hpos : scoreOf name c > acc.1
      · rw [if_pos hpos] at hstep
        have hacc1 : (bestStep name acc (n, c)).1 = scoreOf name c := by rw [hstep]
        have hacc2 : (bestStep name acc (n, c)).2 = (n : ℤ) := by rw [hstep]
        refine ⟨?_, ?_, ?_⟩
        · rw [hunf]
          exact le_of_lt (lt_of_lt_of_le hpos (hacc1 ▸ ihmono))
        · intro j hj
          rw [hunf]
          match j with
          | 0 => exact le_trans (le_of_eq rfl) (hacc1 ▸ ihmono)
          | j + 1 => exact ihmax j (Nat.succ_lt_succ_iff.mp hj)
        · rcases ihcase with heq | ⟨j, hj, h2, h1, hlt, hall⟩
          · refine Or.inr ⟨0, Nat.succ_pos _, ?_, ?_, ?_, fun j' hj' => absurd hj' (Nat.not_lt_zero j')⟩
            · rw [hunf, heq, hacc2]; simp
            · rw [hunf, heq, hacc1]; rfl
            · rw [hunf, heq, hacc1]; exact hpos
          · refine Or.inr ⟨j + 1, Nat.succ_lt_succ hj, ?_, ?_, ?_, ?_⟩
            · rw [hunf, h2]; congr 1; omega
            · rw [hunf]; exact h1
            · rw [hunf]; exact lt_trans (hacc1 ▸ hpos) hlt
            · intro j' hj'
              rw [hunf]
              match j' with
              | 0 => exact hacc1 ▸ hlt
              | j' + 1 => exact hall j' (Nat.succ_lt_succ_iff.mp hj')
      · rw [if_neg hpos] at hstep
        have hle : scoreOf name c ≤ acc.1 := le_of_not_lt hpos
        refine ⟨?_, ?_, ?_⟩
        · rw [hunf]
          exact le_trans (le_of_eq (by rw [hstep])) ihmono
        · intro j hj
          rw [hunf]
          match j with
          | 0 => exact le_trans hle (le_trans (le_of_eq (by rw [hstep])) ihmono)
          | j + 1 => exact ihmax j (Nat.succ_lt_succ_iff.mp hj)
        · rcases ihcase with heq | ⟨j, hj, h2, h1, hlt, hall⟩
          · exact Or.inl (by rw [hunf, heq, hstep])
          · refine Or.inr ⟨j + 1, Nat.succ_lt_succ hj, ?_, ?_, ?_, ?_⟩
            · rw [hunf, h2]; congr 1; omega
            · rw [hunf]; exact h1
            · rw [hunf]; exact lt_of_le_of_lt (le_of_eq (by rw [hstep])) hlt
            · intro j' hj'
              rw [hunf]
              match j' with
              | 0 => exact lt_of_le_of_lt (le_trans hle (le_of_eq (by rw [hstep]))) hlt
              | j' + 1 => exact hall j' (Nat.succ_lt_succ_iff.mp hj')

theorem bestMatchFold_max (name : List Char) (cands : List (List Char))
    (h : (bestMatchFold name cands).1 > 17/20) :
    ∃ k, ∃ hk : k < cands.length,
      (bestMatchFold name cands).2 = (k : ℤ) ∧
      (bestMatchFold name cands).1 = scoreOf name (cands.get ⟨k, hk⟩) ∧
      (∀ j (hj : j < cands.length),
        scoreOf name (cands.get ⟨j, hj⟩) ≤ (bestMatchFold name cands).1) ∧
      ∀ j' (hj' : j' < k),
        scoreOf name (cands.get ⟨j', hj'.trans hk⟩) < (bestMatchFold name cands).1 := by
  obtain ⟨_, hmax, hcase⟩ := bestFrom_inv name cands 0 (0, -1)
  rw [bestMatchFold_eq_bestFrom] at h ⊢
  rcases hcase with heq | ⟨j, hj, h2, h1, _, hall⟩
  · rw [heq] at h
    exact absurd h (by norm_num)
  · exact ⟨j, hj, by rw [h2]; congr 1; omega, h1, hmax, hall⟩

/-! ### The full run: composition of the two passes -/

/-- The state after the exact pass of `runChecker` (named form of `st1`). -/
def exactPhase (r : List (List Char × List Char)) (rows : List (List Char)) : MatchState :=
  (buildActivities rows).foldl (exactStep (buildRoster r).exactMap)
    ⟨(buildRoster r).entries, [], 0, 0, []⟩

theorem runChecker_eqn (r : List (List Char × List Char)) (rows : List (List Char)) :
    runChecker r rows =
      (chunks50 ((exactPhase r rows).acts.filter (fun e => !e.matched))).foldl
        (fun st batch => batch.foldl
          (fuzzyStep ((exactPhase r rows).roster.enum.filter (fun p => !p.2.matched))) st)
        (exactPhase r rows) := rfl

theorem calcSim85_zero_of_budget (s1 s2 : List Char)
    (h : (3 * max s1.length s2.length) / 20 < lev s1 s2) :
    calcSim85 s1 s2 = 0 := by
  unfold calcSim85
  by_cases h1 : max s1.length s2.length = 0
  · exfalso
    obtain ⟨hl1, hl2⟩ := Nat.max_eq_zero_iff.mp h1
    rw [List.length_eq_zero.mp hl1, List.length_eq_zero.mp hl2] at h
    rw [show lev [] [] = 0 from rfl] at h
    omega
  · simp only [h1, if_false]
    by_cases h2 : 3 * max s1.length s2.length <
        20 * ((s1.length : ℤ) - (s2.length : ℤ)).natAbs
    · simp [h2]
    · simp only [h2, if_false]
      by_cases h3 : firstCharNe s1 s2
      · simp [h3]
      · simp only [h3, Bool.false_eq_true, if_false]
        by_cases h4 : jacc85 s1 s2 < mkRat 6 10
        · simp [h4]
        · simp only [h4, if_false]
          have hspec := levenshteinDistanceWithLimit_spec s1 s2
            (((3 * max s1.length s2.length) / 20 : ℕ) : ℤ)
          by_cases h5 : levenshteinDistanceWithLimit s1 s2
              (((3 * max s1.length s2.length) / 20 : ℕ) : ℤ) >
              (((3 * max s1.length s2.length) / 20 : ℕ) : ℤ)
          · rw [if_pos h5]
          · rw [if_neg h5]
            exfalso
            rcases hspec with hd | ⟨hd, _⟩
            · rw [hd] at h5
              have : (lev s1 s2 : ℤ) ≤ (((3 * max s1.length s2.length) / 20 : ℕ) : ℤ) :=
                le_of_not_lt h5
              have : lev s1 s2 ≤ (3 * max s1.length s2.length) / 20 := by exact_mod_cast this
              omega
            · rw [hd] at h5
              omega

theorem calcSim_zero_of_budget (s1 s2 : List Char)
    (h : (3 * max s1.length s2.length) / 20 < lev s1 s2) :
    calculateOptimizedSimilarity s1 s2 (17/20) = 0 := by
  rw [calculateOptimizedSimilarity_at85]
  exact calcSim85_zero_of_budget s1 s2 h

theorem runChecker_pairs (r : List (List Char × List Char)) (rows : List (List Char)) :
    ∃ q1 q2,
      (runChecker r rows).pairs = q1 ++ q2 ∧
      q1.map Prod.fst =
        (((buildActivities rows).map (exactProcess (buildRoster r).exactMap)).filter
          (fun e => e.matched)).map (fun e => e.rowIndex) ∧
      List.Sublist (q2.map Prod.fst)
        ((((buildActivities rows).map (exactProcess (buildRoster r).exactMap)).filter
          (fun e => !e.matched)).map (fun e => e.rowIndex)) := by
  have hm : ∀ x ∈ buildActivities rows, x.matched = false :=
    fun x hx => (buildActivities_entries rows x hx).1
  obtain ⟨hacts, _, q1, hpairs, hq1⟩ :=
    exactFold_spec (buildRoster r).exactMap (buildActivities rows)
      ⟨(buildRoster r).entries, [], 0, 0, []⟩ hm
  obtain ⟨q2, hq2, hsub⟩ :=
    fuzzyFold_pairs ((exactPhase r rows).roster.enum.filter (fun p => !p.2.matched))
      ((exactPhase r rows).acts.filter (fun e => !e.matched)) (exactPhase r rows)
  refine ⟨q1, q2, ?_, ?_, ?_⟩
  · rw [runChecker_eqn, chunked_foldl, hq2]
    have : (exactPhase r rows).pairs = q1 := by
      rw [show (exactPhase r rows).pairs =
        ((buildActivities rows).foldl
          (exactStep (buildRoster r).exactMap)
          ⟨(buildRoster r).entries, [], 0, 0, []⟩).pairs from rfl, hpairs]
      rfl
    rw [this]
  · exact hq1
  · refine hsub.trans ?_
    have : (exactPhase r rows).acts =
        (buildActivities rows).map (exactProcess (buildRoster r).exactMap) := by
      rw [show (exactPhase r rows).acts =
        ((buildActivities rows).foldl
          (exactStep (buildRoster r).exactMap)
          ⟨(buildRoster r).entries, [], 0, 0, []⟩).acts from rfl, hacts]
      rfl
    rw [this]

theorem mapped_rowIndex_eq (r : List (List Char × List Char)) (rows : List (List Char)) :
    ((buildActivities rows).map (exactProcess (buildRoster r).exactMap)).map
      (fun e => e.rowIndex) = (buildActivities rows).map (fun e => e.rowIndex) := by
  rw [List.map_map]
  exact List.map_congr_left fun a _ => exactProcess_rowIndex _ a

theorem pairs_fst_parts_nodup (r : List (List Char × List Char)) (rows : List (List Char)) :
    ∀ p : ActivityEntry → Bool,
      ((((buildActivities rows).map (exactProcess (buildRoster r).exactMap)).filter p).map
        (fun e => e.rowIndex)).Nodup := by
  intro p
  have hnodup : (((buildActivities rows).map
      (exactProcess (buildRoster r).exactMap)).map (fun e => e.rowIndex)).Nodup := by
    rw [mapped_rowIndex_eq]
    exact buildActivities_rowIndex_nodup rows
  exact hnodup.sublist ((List.filter_sublist _).map _)

theorem pairs_fst_parts_disjoint (r : List (List Char × List Char)) (rows : List (List Char)) :
    List.Disjoint
      ((((buildActivities rows).map (exactProcess (buildRoster r).exactMap)).filter
        (fun e => e.matched)).map (fun e => e.rowIndex))
      ((((buildActivities rows).map (exactProcess (buildRoster r).exactMap)).filter
        (fun e => !e.matched)).map (fun e => e.rowIndex)) := by
  intro x hx1 hx2
  obtain ⟨a, ha, hax⟩ := List.mem_map.mp hx1
  obtain ⟨b, hb, hbx⟩ := List.mem_map.mp hx2
  obtain ⟨ha', hpa⟩ := List.mem_filter.mp ha
  obtain ⟨hb', hpb⟩ := List.mem_filter.mp hb
  have hnodup : (((buildActivities rows).map
      (exactProcess (buildRoster r).exactMap)).map (fun e => e.rowIndex)).Nodup := by
    rw [mapped_rowIndex_eq]
    exact buildActivities_rowIndex_nodup rows
  have hab : a = b :=
    List.inj_on_of_nodup_map hnodup ha' hb' (hax.trans hbx.symm)
  rw [hab] at hpa
  rw [hpa] at hpb
  simp at hpb

theorem mem_filtered_rowIndex (r : List (List Char × List Char)) (rows : List (List Char))
    (p : ActivityEntry → Bool) (x : ℕ)
    (hx : x ∈ (((buildActivities rows).map (exactProcess (buildRoster r).exactMap)).filter
      p).map (fun e => e.rowIndex)) :
    ∃ e ∈ buildActivities rows, e.rowIndex = x := by
  obtain ⟨a, ha, hax⟩ := List.mem_map.mp hx
  obtain ⟨ha', _⟩ := List.mem_filter.mp ha
  obtain ⟨e, he, hea⟩ := List.mem_map.mp ha'
  exact ⟨e, he, by rw [← hax, ← hea, exactProcess_rowIndex]⟩

theorem run_pairs_fst_mem (r : List (List Char × List Char)) (rows : List (List Char))
    (x : ℕ) (hx : x ∈ ((runChecker r rows).pairs.map Prod.fst)) :
    ∃ e ∈ buildActivities rows, e.rowIndex = x := by
  obtain ⟨q1, q2, hp, hq1, hq2⟩ := runChecker_pairs r rows
  rw [hp, List.map_append] at hx
  rcases List.mem_append.mp hx with h | h
  · exact mem_filtered_rowIndex r rows _ x (hq1 ▸ h)
  · exact mem_filtered_rowIndex r rows _ x (hq2.subset h)

theorem fuzzyStep_ite (snapshot : List (ℕ × RosterEntry)) (st : MatchState)
    (a : ActivityEntry) :
    fuzzyStep snapshot st a =
      if (bestMatchFold a.normalizedName (snapshot.map (fun p => p.2.normalizedName))).1 >
          17/20 then
        { st with
          roster := markMatchedAt st.roster
            (((snapshot.get? (bestMatchFold a.normalizedName
              (snapshot.map (fun p => p.2.normalizedName))).2.toNat).map
                (fun p => p.1)).getD 0),
          acts := st.acts.map
            (fun e => if e.rowIndex = a.rowIndex then { e with matched := true } else e),
          fuzzyMatches := st.fuzzyMatches + 1,
          pairs := st.pairs ++ [(a.rowIndex,
            (((snapshot.get? (bestMatchFold a.normalizedName
              (snapshot.map (fun p => p.2.normalizedName))).2.toNat).map
                (fun p => p.1)).getD 0))] }
      else st := rfl

theorem best_smith_above_threshold :
    (bestMatchFold (("smith").toList) [(("smith").toList), (("smyth").toList)]).1 > 17/20 := by
  rw [bestMatchFold_eq, seventeen_twentieths_eq]
  decide

/-! ## The claims -/

/-- Claim C1 (corrected): the run is not one-to-one on the roster side —
the fuzzy pass scans a snapshot taken before the pass and never rechecks
the `matched` flags, so one roster entry can be selected by several
activity records.  What does hold is the activity half of the invariant:
after a full run no activity row is involved in more than one match pair. -/
theorem activity_matched_at_most_once (r : List (List Char × List Char))
    (rows : List (List Char)) :
    (((runChecker r rows).pairs).map Prod.fst).Nodup := by
  obtain ⟨q1, q2, hp, hq1, hq2⟩ := runChecker_pairs r rows
  rw [hp, List.map_append]
  refine List.Nodup.append ?_ ?_ ?_
  · rw [hq1]
    exact pairs_fst_parts_nodup r rows _
  · exact List.Nodup.sublist hq2 (pairs_fst_parts_nodup r rows _)
  · intro x hx1 hx2
    exact pairs_fst_parts_disjoint r rows (hq1 ▸ hx1) (hq2.subset hx2)

/-- Counterexample to claim C1 as stated: with one roster entry and two
activity rows both scoring above the threshold against it, the run pairs
the same roster entry (index `0`) with both activity rows, so a record on
the roster side is matched by two counterparts in the same run. -/
theorem one_to_one_counterexample :
    (runChecker [((("jane").toList), (("doe").toList))]
        [(("jane dow").toList), (("jane do").toList)]).pairs = [(0, 0), (1, 0)] ∧
    ¬(((runChecker [((("jane").toList), (("doe").toList))]
        [(("jane dow").toList), (("jane do").toList)]).pairs.map Prod.snd).Nodup) := by
  rw [runChecker_eq]
  exact ⟨by decide, by decide⟩

/-- Claim C2 (corrected): `Map.set` overwrites the value of an existing
key, so when several roster records share a normalized name the exact-match
index maps that key to the LAST such record in input order, not the first;
the earlier duplicates are the ones left unindexed. -/
theorem exactMap_last_wins (rows : List (List Char × List Char)) (k : List Char) :
    mapGet (buildRoster rows).exactMap k = lastIdx (buildRoster rows).entries k :=
  buildRoster_lastIdx rows k

/-- Counterexample to claim C2 as stated: two roster rows normalizing to
the same key `janedoe`; the first such entry has position `0`, but the
exact-match map sends the key to position `1`. -/
theorem exactMap_first_wins_counterexample :
    ((buildRoster [((("jane").toList), (("doe").toList)),
        ((("jane").toList), (("doe").toList))]).entries.map (fun e => e.normalizedName)) =
      [(("janedoe").toList), (("janedoe").toList)] ∧
    firstIdx (buildRoster [((("jane").toList), (("doe").toList)),
        ((("jane").toList), (("doe").toList))]).entries (("janedoe").toList) = some 0 ∧
    mapGet (buildRoster [((("jane").toList), (("doe").toList)),
        ((("jane").toList), (("doe").toList))]).exactMap (("janedoe").toList) = some 1 :=
  ⟨by decide, by decide, by decide⟩

/-- Claim C3 (corrected): on the two-record example the outcome is as the
claim says — the first activity row exact-matches roster entry `0`, the
second fuzzy-matches roster entry `1`, and the report is exact = 1,
fuzzy = 1, unmatched = 0 on both sides — but the fuzzy score is
`6/7 ≈ 0.857` (distance 1 over normalized length 7), not `0.875`. -/
theorem example_run_report :
    (runChecker [((("john smith").toList), []), ((("jane doe").toList), [])]
        [(("John Smith (note)").toList), (("jane dow").toList)]).pairs = [(0, 0), (1, 1)] ∧
    (runChecker [((("john smith").toList), []), ((("jane doe").toList), [])]
        [(("John Smith (note)").toList), (("jane dow").toList)]).exactMatches = 1 ∧
    (runChecker [((("john smith").toList), []), ((("jane doe").toList), [])]
        [(("John Smith (note)").toList), (("jane dow").toList)]).fuzzyMatches = 1 ∧
    unmatchedCount (runChecker [((("john smith").toList), []), ((("jane doe").toList), [])]
        [(("John Smith (note)").toList), (("jane dow").toList)]) = 0 ∧
    ((runChecker [((("john smith").toList), []), ((("jane doe").toList), [])]
        [(("John Smith (note)").toList), (("jane dow").toList)]).roster.filter
          (fun e => !e.matched)).length = 0 ∧
    calculateOptimizedSimilarity (("janedow").toList) (("janedoe").toList) (17/20) = 6/7 := by
  rw [runChecker_eq]
  refine ⟨by decide, by decide, by decide, by decide, by decide, ?_⟩
  rw [calculateOptimizedSimilarity_at85, show (6/7 : ℚ) = mkRat 6 7 by
    rw [Rat.mkRat_eq_div]; norm_num]
  decide

/-- Counterexample to claim C3 as stated: the fuzzy score of the second
pair is `6/7`, which is not the claimed `0.875 = 7/8` (the claim computed
the length over the raw text `jane dow` instead of the normalized
`janedow`). -/
theorem example_run_score_counterexample :
    calculateOptimizedSimilarity (("janedow").toList) (("janedoe").toList) (17/20) = 6/7 ∧
    (6/7 : ℚ) ≠ 7/8 := by
  constructor
  · rw [calculateOptimizedSimilarity_at85, show (6/7 : ℚ) = mkRat 6 7 by
      rw [Rat.mkRat_eq_div]; norm_num]
    decide
  · norm_num

/-- Claim C4 (confirmed): for every budget `d ≥ 0`, the limited distance
returns the true Levenshtein distance whenever that distance is within the
budget, and otherwise a value strictly greater than the budget; and the
scorer gives similarity `0` whenever the true distance exceeds the
`⌊0.15 · maxLength⌋` budget it passes. -/
theorem levLimit_exact_or_over (s1 s2 : List Char) (d : ℤ) (hd : 0 ≤ d) :
    ((levenshteinDistanceWithLimit s1 s2 d = (lev s1 s2 : ℤ) ∧ (lev s1 s2 : ℤ) ≤ d) ∨
     (d < levenshteinDistanceWithLimit s1 s2 d ∧ d < (lev s1 s2 : ℤ))) ∧
    (calculateOptimizedSimilarity s1 s2 (17/20) = 0 ∨
      lev s1 s2 ≤ (3 * max s1.length s2.length) / 20) := by
  constructor
  · rcases levenshteinDistanceWithLimit_spec s1 s2 d with h' | ⟨h', hlt⟩
    · by_cases hle : (lev s1 s2 : ℤ) ≤ d
      · exact Or.inl ⟨h', hle⟩
      · exact Or.inr ⟨by rw [h']; omega, by omega⟩
    · exact Or.inr ⟨by rw [h']; omega, hlt⟩
  · by_cases hb : lev s1 s2 ≤ (3 * max s1.length s2.length) / 20
    · exact Or.inr hb
    · exact Or.inl (calcSim_zero_of_budget s1 s2 (lt_of_not_le hb))

/-- Witness for claim C4's theorem at `s1 = janedow`, `s2 = janedoe`,
`d = 1`: the budget is nonnegative and the conclusion holds there. -/
theorem levLimit_exact_or_over_witness :
    (0 : ℤ) ≤ 1 ∧
    (((levenshteinDistanceWithLimit (("janedow").toList) (("janedoe").toList) 1 =
        (lev (("janedow").toList) (("janedoe").toList) : ℤ) ∧
      (lev (("janedow").toList) (("janedoe").toList) : ℤ) ≤ 1) ∨
     (1 < levenshteinDistanceWithLimit (("janedow").toList) (("janedoe").toList) 1 ∧
      1 < (lev (("janedow").toList) (("janedoe").toList) : ℤ))) ∧
    (calculateOptimizedSimilarity (("janedow").toList) (("janedoe").toList) (17/20) = 0 ∨
      lev (("janedow").toList) (("janedoe").toList) ≤
        (3 * max (("janedow").toList).length (("janedoe").toList).length) / 20)) :=
  ⟨by decide, levLimit_exact_or_over (("janedow").toList) (("janedoe").toList) 1 (by decide)⟩

/-- Claim C5 (confirmed): the similarity score is symmetric in its two
string arguments for every threshold, including when the bounded distance
computation aborts early for one order but not the other. -/
theorem similarity_symmetric (s1 s2 : List Char) (threshold : ℚ) :
    calculateOptimizedSimilarity s1 s2 threshold =
      calculateOptimizedSimilarity s2 s1 threshold :=
  calcSim_symm s1 s2 threshold

/-- Claim C6 (confirmed): the fuzzy pass accepts exactly when the best
candidate score is strictly greater than `0.85`: the fuzzy-match counter
increments iff the best score exceeds `17/20`, the state is untouched iff
it does not, and a score of exactly `17/20` is attainable (twenty
characters at distance 3). -/
theorem fuzzy_threshold_strict (snapshot : List (ℕ × RosterEntry)) (st : MatchState)
    (a : ActivityEntry) :
    ((fuzzyStep snapshot st a).fuzzyMatches = st.fuzzyMatches + 1 ↔
      (bestMatchFold a.normalizedName (snapshot.map (fun p => p.2.normalizedName))).1 >
        17/20) ∧
    (fuzzyStep snapshot st a = st ↔
      ¬((bestMatchFold a.normalizedName (snapshot.map (fun p => p.2.normalizedName))).1 >
        17/20)) ∧
    calculateOptimizedSimilarity (("abcdefghijklmnopqrst").toList)
      (("abcdefghijklmnopqaaa").toList) (17/20) = 17/20 := by
  refine ⟨?_, ?_, ?_⟩
  · by_cases hb : (bestMatchFold a.normalizedName
        (snapshot.map (fun p => p.2.normalizedName))).1 > 17/20
    · rw [fuzzyStep_ite, if_pos hb]
      exact iff_of_true rfl hb
    · rw [fuzzyStep_ite, if_neg hb]
      exact iff_of_false (by omega) hb
  · by_cases hb : (bestMatchFold a.normalizedName
        (snapshot.map (fun p => p.2.normalizedName))).1 > 17/20
    · rw [fuzzyStep_ite, if_pos hb]
      refine iff_of_false ?_ (not_not_intro hb)
      intro he
      have h2 : st.fuzzyMatches + 1 = st.fuzzyMatches :=
        congrArg MatchState.fuzzyMatches he
      omega
    · rw [fuzzyStep_ite, if_neg hb]
      exact iff_of_true rfl hb
  · rw [calculateOptimizedSimilarity_at85, seventeen_twentieths_eq]
    decide

/-- Claim C7 (confirmed): when the best fuzzy score exceeds the threshold,
the selected index is an index achieving the best score, every candidate
scores at most the best score, and every earlier candidate scores strictly
below it — the earliest index achieving the maximum, since the tracker
only replaces on strict improvement; and on the `smith`/`smyth` example
the first activity row is paired with roster entry `0`, not `1`. -/
theorem fuzzy_earliest_max_claim (name : List Char) (cands : List (List Char))
    (h : (bestMatchFold name cands).1 > 17/20) :
    (∃ k : ℕ, (bestMatchFold name cands).2 = (k : ℤ) ∧
      (cands.get? k).map (scoreOf name) = some (bestMatchFold name cands).1 ∧
      (∀ j c, cands.get? j = some c → scoreOf name c ≤ (bestMatchFold name cands).1) ∧
      (∀ j c, j < k → cands.get? j = some c →
        scoreOf name c < (bestMatchFold name cands).1)) ∧
    (runChecker [((("smith").toList), []), ((("smyth").toList), [])]
      [(("smith").toList)]).pairs = [(0, 0)] := by
  constructor
  · obtain ⟨k, hk, h2, h1, hmax, hall⟩ := bestMatchFold_max name cands h
    refine ⟨k, h2, ?_, ?_, ?_⟩
    · rw [List.get?_eq_get hk]
      exact congrArg some h1.symm
    · intro j c hjc
      obtain ⟨hj, hc⟩ := List.get?_eq_some.mp hjc
      rw [← hc]
      exact hmax j hj
    · intro j c hjk hjc
      obtain ⟨hj, hc⟩ := List.get?_eq_some.mp hjc
      rw [← hc]
      exact hall j hjk
  · rw [runChecker_eq]
    decide

/-- Witness for claim C7's theorem at `name = smith` and the candidate
list `[smith, smyth]`: the best score there exceeds the threshold and the
conclusion holds. -/
theorem fuzzy_earliest_max_claim_witness :
    (∃ k : ℕ, (bestMatchFold (("smith").toList)
        [(("smith").toList), (("smyth").toList)]).2 = (k : ℤ) ∧
      (([(("smith").toList), (("smyth").toList)] : List (List Char)).get? k).map
        (scoreOf (("smith").toList)) =
        some (bestMatchFold (("smith").toList)
          [(("smith").toList), (("smyth").toList)]).1 ∧
      (∀ j c, ([(("smith").toList), (("smyth").toList)] : List (List Char)).get? j = some c →
        scoreOf (("smith").toList) c ≤ (bestMatchFold (("smith").toList)
          [(("smith").toList), (("smyth").toList)]).1) ∧
      (∀ j c, j < k →
        ([(("smith").toList), (("smyth").toList)] : List (List Char)).get? j = some c →
        scoreOf (("smith").toList) c < (bestMatchFold (("smith").toList)
          [(("smith").toList), (("smyth").toList)]).1)) ∧
    (runChecker [((("smith").toList), []), ((("smyth").toList), [])]
      [(("smith").toList)]).pairs = [(0, 0)] :=
  fuzzy_earliest_max_claim (("smith").toList) [(("smith").toList), (("smyth").toList)]
    best_smith_above_threshold

/-- Claim C8 (corrected): a row whose raw text normalizes to the empty
string is indeed never matched (it is skipped, so its index never appears
in a match pair and no activity entry is built for it), but it is NOT
counted in the unmatched statistic — the report counts only the rows that
produced a nonempty normalized name. -/
theorem empty_normalization_never_matched (r : List (List Char × List Char))
    (rows : List (List Char)) (i : ℕ) (raw : List Char)
    (h1 : rows.get? i = some raw)
    (h2 : normalizeActivityName (cleanName raw) = []) :
    i ∉ ((runChecker r rows).pairs.map Prod.fst) ∧
    ∀ e ∈ buildActivities rows, e.rowIndex ≠ i := by
  have hnoe : ∀ e ∈ buildActivities rows, e.rowIndex ≠ i := by
    intro e he hei
    obtain ⟨_, hne, raw', hraw', hname⟩ := buildActivities_entries rows e he
    rw [hei, h1] at hraw'
    have hraw : raw' = raw := (Option.some_inj.mp hraw').symm
    rw [hraw, h2] at hname
    exact hne hname
  refine ⟨?_, hnoe⟩
  intro hmem
  obtain ⟨e, he, hei⟩ := run_pairs_fst_mem r rows i hmem
  exact hnoe e he hei

/-- Witness for claim C8's theorem at the row `123` (which normalizes to
the empty string) in position `0`. -/
theorem empty_normalization_never_matched_witness :
    ([(("123").toList)] : List (List Char)).get? 0 = some (("123").toList) ∧
    normalizeActivityName (cleanName (("123").toList)) = [] ∧
    (0 ∉ ((runChecker [((("jane").toList), (("doe").toList))]
        [(("123").toList)]).pairs.map Prod.fst) ∧
     ∀ e ∈ buildActivities [(("123").toList)], e.rowIndex ≠ 0) :=
  ⟨by decide, by decide,
    empty_normalization_never_matched [((("jane").toList), (("doe").toList))]
      [(("123").toList)] 0 (("123").toList) (by decide) (by decide)⟩

/-- Counterexample to claim C8 as stated: with a single activity row `123`
(normalizing to empty), the run matches nothing, yet the unmatched
statistic is `0`, not `1` — the skipped row is not counted anywhere. -/
theorem empty_row_not_counted_counterexample :
    normalizeActivityName (cleanName (("123").toList)) = [] ∧
    (runChecker [((("jane").toList), (("doe").toList))] [(("123").toList)]).pairs = [] ∧
    unmatchedCount (runChecker [((("jane").toList), (("doe").toList))]
      [(("123").toList)]) = 0 := by
  rw [runChecker_eq]
  exact ⟨by decide, by decide, by decide⟩

/-- Claim C9 (confirmed): the full normalization pipeline (`cleanName`
followed by `normalizeActivityName`) is idempotent. -/
theorem normalization_idempotent (s : List Char) :
    normalizeActivityName (cleanName (normalizeActivityName (cleanName s))) =
      normalizeActivityName (cleanName s) := by
  rw [comp_eq_simpleNormalize s, comp_eq_simpleNormalize (simpleNormalize s)]
  exact simpleNormalize_fix (simpleNormalize s) (simpleNormalize_all_alpha s)

/-- Claim C10 (confirmed): the composite normalization
`normalizeActivityName ∘ cleanName` is extensionally equal to the simple
function that truncates at the first parenthesis, lowercases, and deletes
every character outside `a`-`z`; the hyphen-separator removals never
change the result. -/
theorem normalize_refines_simple (s : List Char) :
    normalizeActivityName (cleanName s) = simpleNormalize s :=
  comp_eq_simpleNormalize s
